import Mathlib

/-!
# Little-endian integer codec of package `utils`

A shallow embedding of `utils/utils.go`: the byte-source interface
(`io.ByteReader`), the decoders `ReadUintN`, `ReadUint64`, `ReadUint32`,
`ReadUint16`, the encoders `WriteUint64` ... `WriteUint16`, the function
`RandomBit` and the sortable slice `Uint32Slice`.

Machine integers are natural numbers; every Go operation that can drop
bits is written with its explicit reduction modulo `2 ^ w`.
-/

namespace utils

/-! ## Machine arithmetic -/

/-- A Go `byte` (`uint8`). -/
abbrev Byte := Fin 256

/-- The Go conversion `uint8(x)`: keeps the low 8 bits. -/
def uint8 (x : Nat) : Byte := ⟨x % 256, Nat.mod_lt x (by decide)⟩

/-- Addition of two `uint16` values. -/
def add16 (x y : Nat) : Nat := (x + y) % 2 ^ 16

/-- Addition of two `uint32` values. -/
def add32 (x y : Nat) : Nat := (x + y) % 2 ^ 32

/-- Addition of two `uint64` values. -/
def add64 (x y : Nat) : Nat := (x + y) % 2 ^ 64

/-- Left shift `x << s` of a `uint16`: bits shifted past bit 15 are lost. -/
def shl16 (x s : Nat) : Nat := (x <<< s) % 2 ^ 16

/-- Left shift `x << s` of a `uint32`: bits shifted past bit 31 are lost. -/
def shl32 (x s : Nat) : Nat := (x <<< s) % 2 ^ 32

/-- Left shift `x << s` of a `uint64`: bits shifted past bit 63 are lost
(so the result is `0` as soon as `s ≥ 64`). -/
def shl64 (x s : Nat) : Nat := (x <<< s) % 2 ^ 64

/-- Multiplication of two `uint8` values. -/
def mul8 (x y : Nat) : Nat := (x * y) % 2 ^ 8

/-- The increment `i++` of a `uint8`. -/
def inc8 (i : Nat) : Nat := (i + 1) % 2 ^ 8

/-! ## Byte source and byte sink -/

/-- The interface `io.ByteReader` over a reader state `σ` with errors `ε`:
`ReadByte` returns the pair `(byte, error)` of the Go method (`none` is
`nil`) together with the reader's next state. -/
structure ByteReader (σ ε : Type) where
  ReadByte : σ → (Byte × Option ε) × σ

/-- Modelled from the spec: the byte source of sections 3 and 6 (the
concrete readers are outside the repository). It holds the bytes not yet
delivered, hands them out one per call in order, never delivers a byte
twice, and signals `err` once nothing is left. -/
structure Source (ε : Type) where
  data : List Byte
  err : ε
deriving DecidableEq

/-- One `ReadByte` call on a `Source`. -/
def Source.ReadByte {ε : Type} (s : Source ε) : (Byte × Option ε) × Source ε :=
  match s.data with
  | [] => ((0, some s.err), s)
  | x :: rest => ((x, none), { s with data := rest })

/-- A `Source` seen through the `io.ByteReader` interface. -/
def Source.reader {ε : Type} : ByteReader (Source ε) ε := ⟨Source.ReadByte⟩

/-- A reader instrumented with a call counter: it answers exactly as `R`
does and adds one to the counter at every `ReadByte` call, successful or
not. -/
def ByteReader.counting {σ ε : Type} (R : ByteReader σ ε) : ByteReader (σ × Nat) ε :=
  ⟨fun sc => ((R.ReadByte sc.1).1, ((R.ReadByte sc.1).2, sc.2 + 1))⟩

/-- The content of a `bytes.Buffer`, oldest byte first. -/
abbrev Buffer := List Byte

/-- The method `(*bytes.Buffer).WriteByte`: appends one byte at the end. -/
def Buffer.WriteByte (b : Buffer) (c : Byte) : Buffer := b ++ [c]

/-! ## Decoders -/

/-- The loop `for i := uint8(0); i < length; i++` of `ReadUintN`, by
recursion on the number `n = length - i` of iterations that remain: `i`
is the `uint8` loop counter and `res` the accumulator. The counter starts
at `0` and `length` is at most `255`, so `i++` never wraps before the
test `i < length` fails (`incN_eq`) and the body runs `length` times. -/
def ReadUintN.loop {σ ε : Type} (R : ByteReader σ ε) :
    Nat → Nat → Nat → σ → (Nat × Option ε) × σ
  | 0, _, res, b => ((res, none), b)
  | n + 1, i, res, b =>
    match R.ReadByte b with
    | ((_, some err), b) => ((0, some err), b)
    | ((bt, none), b) =>
      ReadUintN.loop R n (inc8 i) (res ^^^ shl64 bt.val (mul8 i 8)) b

/-- The function `ReadUintN`: reads `length` bytes. -/
def ReadUintN {σ ε : Type} (R : ByteReader σ ε) (b : σ) (length : Nat) :
    (Nat × Option ε) × σ :=
  ReadUintN.loop R length 0 0 b

/-- The function `ReadUint64`. -/
def ReadUint64 {σ ε : Type} (R : ByteReader σ ε) (b : σ) : (Nat × Option ε) × σ :=
  match R.ReadByte b with
  | ((_, some err), b) => ((0, some err), b)
  | ((b1, none), b) =>
  match R.ReadByte b with
  | ((_, some err), b) => ((0, some err), b)
  | ((b2, none), b) =>
  match R.ReadByte b with
  | ((_, some err), b) => ((0, some err), b)
  | ((b3, none), b) =>
  match R.ReadByte b with
  | ((_, some err), b) => ((0, some err), b)
  | ((b4, none), b) =>
  match R.ReadByte b with
  | ((_, some err), b) => ((0, some err), b)
  | ((b5, none), b) =>
  match R.ReadByte b with
  | ((_, some err), b) => ((0, some err), b)
  | ((b6, none), b) =>
  match R.ReadByte b with
  | ((_, some err), b) => ((0, some err), b)
  | ((b7, none), b) =>
  match R.ReadByte b with
  | ((_, some err), b) => ((0, some err), b)
  | ((b8, none), b) =>
    ((add64 (add64 (add64 (add64 (add64 (add64 (add64 b1.val (shl64 b2.val 8))
        (shl64 b3.val 16)) (shl64 b4.val 24)) (shl64 b5.val 32)) (shl64 b6.val 40))
        (shl64 b7.val 48)) (shl64 b8.val 56), none), b)

/-- The function `ReadUint32`. -/
def ReadUint32 {σ ε : Type} (R : ByteReader σ ε) (b : σ) : (Nat × Option ε) × σ :=
  match R.ReadByte b with
  | ((_, some err), b) => ((0, some err), b)
  | ((b1, none), b) =>
  match R.ReadByte b with
  | ((_, some err), b) => ((0, some err), b)
  | ((b2, none), b) =>
  match R.ReadByte b with
  | ((_, some err), b) => ((0, some err), b)
  | ((b3, none), b) =>
  match R.ReadByte b with
  | ((_, some err), b) => ((0, some err), b)
  | ((b4, none), b) =>
    ((add32 (add32 (add32 b1.val (shl32 b2.val 8)) (shl32 b3.val 16))
        (shl32 b4.val 24), none), b)

/-- The function `ReadUint16`. -/
def ReadUint16 {σ ε : Type} (R : ByteReader σ ε) (b : σ) : (Nat × Option ε) × σ :=
  match R.ReadByte b with
  | ((_, some err), b) => ((0, some err), b)
  | ((b1, none), b) =>
  match R.ReadByte b with
  | ((_, some err), b) => ((0, some err), b)
  | ((b2, none), b) => ((add16 b1.val (shl16 b2.val 8), none), b)

/-! ## Encoders -/

/-- The function `WriteUint64`. -/
def WriteUint64 (b : Buffer) (i : Nat) : Buffer :=
  let b := b.WriteByte (uint8 (i &&& 0xff))
  let b := b.WriteByte (uint8 ((i >>> 8) &&& 0xff))
  let b := b.WriteByte (uint8 ((i >>> 16) &&& 0xff))
  let b := b.WriteByte (uint8 ((i >>> 24) &&& 0xff))
  let b := b.WriteByte (uint8 ((i >>> 32) &&& 0xff))
  let b := b.WriteByte (uint8 ((i >>> 40) &&& 0xff))
  let b := b.WriteByte (uint8 ((i >>> 48) &&& 0xff))
  b.WriteByte (uint8 (i >>> 56))

/-- The function `WriteUint56`: writes 56 bit of a `uint64`. -/
def WriteUint56 (b : Buffer) (i : Nat) : Buffer :=
  let b := b.WriteByte (uint8 (i &&& 0xff))
  let b := b.WriteByte (uint8 ((i >>> 8) &&& 0xff))
  let b := b.WriteByte (uint8 ((i >>> 16) &&& 0xff))
  let b := b.WriteByte (uint8 ((i >>> 24) &&& 0xff))
  let b := b.WriteByte (uint8 ((i >>> 32) &&& 0xff))
  let b := b.WriteByte (uint8 ((i >>> 40) &&& 0xff))
  b.WriteByte (uint8 (i >>> 48))

/-- The function `WriteUint48`: writes 48 bit of a `uint64`. -/
def WriteUint48 (b : Buffer) (i : Nat) : Buffer :=
  let b := b.WriteByte (uint8 (i &&& 0xff))
  let b := b.WriteByte (uint8 ((i >>> 8) &&& 0xff))
  let b := b.WriteByte (uint8 ((i >>> 16) &&& 0xff))
  let b := b.WriteByte (uint8 ((i >>> 24) &&& 0xff))
  let b := b.WriteByte (uint8 ((i >>> 32) &&& 0xff))
  b.WriteByte (uint8 (i >>> 40))

/-- The function `WriteUint40`: writes 40 bit of a `uint64`. -/
def WriteUint40 (b : Buffer) (i : Nat) : Buffer :=
  let b := b.WriteByte (uint8 (i &&& 0xff))
  let b := b.WriteByte (uint8 ((i >>> 8) &&& 0xff))
  let b := b.WriteByte (uint8 ((i >>> 16) &&& 0xff))
  let b := b.WriteByte (uint8 ((i >>> 24) &&& 0xff))
  b.WriteByte (uint8 (i >>> 32))

/-- The function `WriteUint32`. -/
def WriteUint32 (b : Buffer) (i : Nat) : Buffer :=
  let b := b.WriteByte (uint8 (i &&& 0xff))
  let b := b.WriteByte (uint8 ((i >>> 8) &&& 0xff))
  let b := b.WriteByte (uint8 ((i >>> 16) &&& 0xff))
  b.WriteByte (uint8 ((i >>> 24) &&& 0xff))

/-- The function `WriteUint24`: writes 24 bit of a `uint32`. -/
def WriteUint24 (b : Buffer) (i : Nat) : Buffer :=
  let b := b.WriteByte (uint8 (i &&& 0xff))
  let b := b.WriteByte (uint8 ((i >>> 8) &&& 0xff))
  b.WriteByte (uint8 ((i >>> 16) &&& 0xff))

/-- The function `WriteUint16`. -/
def WriteUint16 (b : Buffer) (i : Nat) : Buffer :=
  let b := b.WriteByte (uint8 (i &&& 0xff))
  b.WriteByte (uint8 ((i >>> 8) &&& 0xff))

/-! ## Specification vocabulary -/

/-- The reader `R`, started in state `s`, answers its next `bs.length`
calls of `ReadByte` with the bytes `bs`, in order and without error, and
is then in state `t`. -/
def Delivers {σ ε : Type} (R : ByteReader σ ε) : σ → List Byte → σ → Prop
  | s, [], t => t = s
  | s, x :: xs, t => ∃ s1, R.ReadByte s = ((x, none), s1) ∧ Delivers R s1 xs t

/-- The little-endian value of a byte sequence `b_0, b_1, ...`: the sum
of `b_i * 256 ^ i` over the positions `i` of `bs`. -/
def leValue (bs : List Byte) : Nat :=
  ∑ i in Finset.range bs.length, (bs.getD i 0).val * 256 ^ i

/-- The `n` little-endian bytes of `v`: byte `i` is `(v >> (8*i)) & 0xFF`. -/
def leBytes (n v : Nat) : List Byte :=
  (List.range n).map fun i => uint8 ((v >>> (8 * i)) &&& 0xff)

/-- The accumulator of the `ReadUintN` loop after the bytes `bs` have been
read, when the loop counter was `i` and the accumulator `res` before:
each byte is shifted by the `uint8` product `i * 8` and XORed in. -/
def xorFold : Nat → Nat → List Byte → Nat
  | _, res, [] => res
  | i, res, x :: xs => xorFold (inc8 i) (res ^^^ shl64 x.val (mul8 i 8)) xs

/-- The `uint8` loop counter after `n` increments. -/
def incN : Nat → Nat → Nat
  | 0, i => i
  | n + 1, i => incN n (inc8 i)


/-- The buffer `B2` is `B` followed by exactly `n` new bytes, new byte `i`
being `(v >> (8*i)) & 0xFF`: the length grows by `n`, the first
`B.length` bytes are those of `B`, and the byte at position
`B.length + i` has the stated value. -/
def Appends (B : Buffer) (n v : Nat) (B2 : Buffer) : Prop :=
  B2.length = B.length + n ∧ B2.take B.length = B ∧
    ∀ i, i < n → (B2.getD (B.length + i) 0).val = (v >>> (8 * i)) &&& 0xff

/-- The reference little-endian fold of the `ReadUintN` loop, term by
term: the byte at loop index `i` is shifted by `s = (8 * i) mod 256`
(the product is an `uint8`) and contributes `b << s` when `s < 64` and
`0` otherwise; `xorTerms i bs` is the XOR of the terms of `bs`, whose
first byte has index `i`. -/
def xorTerms : Nat → List Byte → Nat
  | _, [] => 0
  | i, x :: xs =>
    (if (8 * i) % 256 < 64 then x.val <<< ((8 * i) % 256) else 0) ^^^ xorTerms (i + 1) xs

/-- Writes the values `vs`, in order, with `WriteUint64`. -/
def writeUint64s (b : Buffer) (vs : List Nat) : Buffer := vs.foldl WriteUint64 b

/-- Calls `ReadUint64` `n` times in a row and collects the `n` results
`(value, error)` in order. -/
def readUint64s {σ ε : Type} (R : ByteReader σ ε) : Nat → σ → List (Nat × Option ε) × σ
  | 0, s => ([], s)
  | n + 1, s =>
    let r := ReadUint64 R s
    let rest := readUint64s R n r.2
    (r.1 :: rest.1, rest.2)

/-! ## Random bit -/

/-- The entropy source behind `crypto/rand.Read`, over a state `σ` with
errors `ε`: `Read` takes the state and the buffer to fill and returns the
buffer after the call and the error of the Go function (`none` is `nil`),
together with the next state. The byte count that `rand.Read` also
returns is discarded by the caller and left out. -/
structure EntropySource (σ ε : Type) where
  Read : σ → List Byte → (List Byte × Option ε) × σ

/-- An entropy source instrumented with two counters: the number of
`Read` calls and the number of bytes requested (the buffer lengths). -/
def EntropySource.counting {σ ε : Type} (E : EntropySource σ ε) :
    EntropySource (σ × Nat × Nat) ε :=
  ⟨fun st b => ((E.Read st.1 b).1, ((E.Read st.1 b).2, st.2.1 + 1, st.2.2 + b.length))⟩

/-- Modelled from the spec: the secure entropy source of section 6 (it is
outside the repository), fed from a `Source` of pending random bytes. A
`Read` fills the whole buffer from the pending bytes, or signals the
source's error and leaves the buffer as it was when too few are left. -/
def Source.entropy {ε : Type} : EntropySource (Source ε) ε :=
  ⟨fun s b =>
    if b.length ≤ s.data.length then
      ((s.data.take b.length, none), { s with data := s.data.drop b.length })
    else ((b, some s.err), s)⟩

/-- The function `RandomBit`. -/
def RandomBit {σ ε : Type} (E : EntropySource σ ε) (st : σ) : (Bool × Option ε) × σ :=
  let b : List Byte := [0]
  match E.Read st b with
  | ((_, some err), st) => ((false, some err), st)
  | ((b, none), st) =>
    if (b.getD 0 0).val % 2 = 0 then ((false, none), st) else ((true, none), st)

/-! ## Sortable slice of `uint32` -/

/-- The type `Uint32Slice`, a `[]uint32`. The elements are kept as
natural numbers: no operation computes with them, so nothing is reduced
modulo `2 ^ 32`. -/
abbrev Uint32Slice := List Nat

/-- The index expression `s[i]` with an `int` index: `none` is the
run-time panic for an index out of range. -/
def Uint32Slice.index (s : Uint32Slice) (i : Int) : Option Nat :=
  if 0 ≤ i then s[i.toNat]? else none

/-- The method `Len`. -/
def Uint32Slice.Len (s : Uint32Slice) : Int := s.length

/-- The method `Less`: `s[i] < s[j]`. -/
def Uint32Slice.Less (s : Uint32Slice) (i j : Int) : Option Bool :=
  match s.index i, s.index j with
  | some a, some b => some (decide (a < b))
  | _, _ => none

/-- The method `Swap`: `s[i], s[j] = s[j], s[i]`. Both operands on the
right are read before either element is assigned. -/
def Uint32Slice.Swap (s : Uint32Slice) (i j : Int) : Option Uint32Slice :=
  match s.index j, s.index i with
  | some b, some a => some ((s.set i.toNat b).set j.toNat a)
  | _, _ => none

/-- Modelled from the spec: the inner loop of an insertion sort that
touches the data through `Less` and `Swap` only (the sort algorithm is
outside the repository),
`for j := i; j > 0 && data.Less(j, j-1); j-- { data.Swap(j, j-1) }`. -/
def insertionSort.inner : Nat → Uint32Slice → Option Uint32Slice
  | 0, s => some s
  | j + 1, s =>
    match s.Less ((j + 1 : Nat) : Int) (j : Int) with
    | none => none
    | some false => some s
    | some true =>
      match s.Swap ((j + 1 : Nat) : Int) (j : Int) with
      | none => none
      | some s2 => insertionSort.inner j s2

/-- Modelled from the spec: the outer loop of the insertion sort,
`for i := 1; i < n; i++`, by recursion on the number of iterations that
remain. -/
def insertionSort.outer : Nat → Nat → Uint32Slice → Option Uint32Slice
  | 0, _, s => some s
  | n + 1, i, s =>
    match insertionSort.inner i s with
    | none => none
    | some s2 => insertionSort.outer n (i + 1) s2

/-- Modelled from the spec: an insertion sort written against `Len`,
`Less` and `Swap` (section 8, sort correctness). `none` is a run-time
panic of one of the three operations. -/
def insertionSort (s : Uint32Slice) : Option Uint32Slice :=
  insertionSort.outer (s.Len.toNat - 1) 1 s

/-! ## Arithmetic lemmas -/

theorem and_ff (x : Nat) : x &&& 0xff = x % 256 :=
  Nat.and_pow_two_sub_one_eq_mod x 8

theorem uint8_and_ff (x : Nat) : uint8 (x &&& 0xff) = uint8 x := by
  apply Fin.ext
  simp [uint8, and_ff]

theorem uint8_val_and_ff (x : Nat) : (uint8 (x &&& 0xff)).val = x &&& 0xff := by
  simp [uint8, and_ff]

theorem xor_disjoint (a b k : Nat) (h : a < 2 ^ k) :
    a ^^^ (2 ^ k * b) = a + 2 ^ k * b := by
  rw [Nat.add_comm]
  apply Nat.eq_of_testBit_eq
  intro j
  rw [Nat.testBit_xor, Nat.testBit_mul_pow_two_add b h, Nat.testBit_mul_pow_two]
  by_cases hj : j < k
  · have : ¬ k ≤ j := by omega
    simp [hj, this]
  · have hk : k ≤ j := by omega
    have hlt : a < 2 ^ j := lt_of_lt_of_le h (Nat.pow_le_pow_right (by decide) hk)
    simp [hj, hk, Nat.testBit_lt_two_pow hlt]

theorem and_disjoint (a b k : Nat) (h : a < 2 ^ k) : a &&& (b <<< k) = 0 := by
  apply Nat.eq_of_testBit_eq
  intro j
  rw [Nat.testBit_and, Nat.testBit_shiftLeft, Nat.zero_testBit]
  by_cases hj : j < k
  · have : ¬ k ≤ j := by omega
    simp [this]
  · have hk : k ≤ j := by omega
    have hlt : a < 2 ^ j := lt_of_lt_of_le h (Nat.pow_le_pow_right (by decide) hk)
    simp [Nat.testBit_lt_two_pow hlt]

theorem leValue_nil : leValue [] = 0 := by simp [leValue]

theorem leValue_cons (x : Byte) (xs : List Byte) :
    leValue (x :: xs) = x.val + 256 * leValue xs := by
  simp only [leValue, List.length_cons, Finset.sum_range_succ', List.getD_cons_succ,
    List.getD_cons_zero, pow_zero, mul_one, Finset.mul_sum, pow_succ]
  rw [Nat.add_comm]
  congr 1
  apply Finset.sum_congr rfl
  intro i _
  ring

theorem leValue_lt (bs : List Byte) : leValue bs < 2 ^ (8 * bs.length) := by
  induction bs with
  | nil => simp [leValue_nil]
  | cons x xs ih =>
    have hx := x.isLt
    have : 2 ^ (8 * (xs.length + 1)) = 256 * 2 ^ (8 * xs.length) := by
      rw [Nat.mul_add, Nat.pow_add]; norm_num [Nat.mul_comm]
    simp only [leValue_cons, List.length_cons, this]
    omega

theorem shl64_byte (x : Byte) (i : Nat) (hi : i < 8) :
    shl64 x.val (mul8 i 8) = 2 ^ (8 * i) * x.val := by
  have hm : mul8 i 8 = 8 * i := by unfold mul8; omega
  rw [hm, shl64, Nat.shiftLeft_eq, Nat.mul_comm]
  apply Nat.mod_eq_of_lt
  calc 2 ^ (8 * i) * x.val < 2 ^ (8 * i) * 2 ^ 8 :=
        Nat.mul_lt_mul_of_pos_left (by simp) (Nat.two_pow_pos _)
    _ = 2 ^ (8 * i + 8) := (Nat.pow_add 2 _ _).symm
    _ ≤ 2 ^ 64 := Nat.pow_le_pow_right (by decide) (by omega)

theorem shl64_lit (b : Byte) (k : Nat) (hk : k ≤ 56) : shl64 b.val k = b.val * 2 ^ k := by
  rw [shl64, Nat.shiftLeft_eq]
  apply Nat.mod_eq_of_lt
  calc b.val * 2 ^ k < 2 ^ 8 * 2 ^ k :=
        Nat.mul_lt_mul_of_pos_right (by simp) (Nat.two_pow_pos _)
    _ = 2 ^ (8 + k) := (Nat.pow_add 2 _ _).symm
    _ ≤ 2 ^ 64 := Nat.pow_le_pow_right (by decide) (by omega)

theorem xorFold_eq (bs : List Byte) (i res : Nat) (hlen : i + bs.length ≤ 8)
    (hres : res < 2 ^ (8 * i)) :
    xorFold i res bs = res + 2 ^ (8 * i) * leValue bs := by
  induction bs generalizing i res with
  | nil => simp [xorFold, leValue_nil]
  | cons x xs ih =>
    simp only [List.length_cons] at hlen
    have hi : i < 8 := by omega
    have hinc : inc8 i = i + 1 := by unfold inc8; omega
    have hx := x.isLt
    have hpow : 2 ^ (8 * (i + 1)) = 2 ^ (8 * i) * 256 := by
      rw [Nat.mul_add, Nat.pow_add]
    have hnew : res + 2 ^ (8 * i) * x.val < 2 ^ (8 * (i + 1)) := by
      rw [hpow]
      have : 2 ^ (8 * i) * x.val + 2 ^ (8 * i) ≤ 2 ^ (8 * i) * 256 := by
        rw [← Nat.mul_succ]; exact Nat.mul_le_mul_left _ (by omega)
      omega
    rw [xorFold, hinc, shl64_byte x i hi, xor_disjoint _ _ _ hres,
      ih (i + 1) _ (by omega) hnew, hpow, leValue_cons]
    ring

theorem xorFold_zero (bs : List Byte) (hlen : bs.length ≤ 8) :
    xorFold 0 0 bs = leValue bs := by
  rw [xorFold_eq bs 0 0 (by omega) (by simp)]
  simp

theorem incN_eq (n i : Nat) (h : i + n < 256) : incN n i = i + n := by
  induction n generalizing i with
  | zero => rfl
  | succ n ih =>
    have hinc : inc8 i = i + 1 := by unfold inc8; omega
    rw [incN, hinc, ih (i + 1) (by omega)]
    omega

/-! ## Runs of a reader -/

theorem Source.delivers {ε : Type} (p r : List Byte) (e : ε) :
    Delivers Source.reader ⟨p ++ r, e⟩ p ⟨r, e⟩ := by
  induction p with
  | nil => simp [Delivers]
  | cons x xs ih => exact ⟨⟨xs ++ r, e⟩, rfl, ih⟩

theorem Source.fails {ε : Type} (e : ε) :
    Source.reader.ReadByte ⟨[], e⟩ = ((0, some e), ⟨[], e⟩) := rfl

theorem Delivers.counting {σ ε : Type} {R : ByteReader σ ε} {s t : σ} {bs : List Byte}
    (h : Delivers R s bs t) (c : Nat) :
    Delivers R.counting (s, c) bs (t, c + bs.length) := by
  induction bs generalizing s c with
  | nil => simp only [Delivers] at h; subst h; simp [Delivers]
  | cons x xs ih =>
    obtain ⟨s1, e1, d1⟩ := h
    refine ⟨(s1, c + 1), ?_, ?_⟩
    · simp [ByteReader.counting, e1]
    · have := ih d1 (c + 1)
      simpa [Nat.add_assoc, Nat.add_comm 1] using this

theorem counting_fails {σ ε : Type} {R : ByteReader σ ε} {t u : σ} {x : Byte} {e : ε}
    (h : R.ReadByte t = ((x, some e), u)) (c : Nat) :
    R.counting.ReadByte (t, c) = ((x, some e), (u, c + 1)) := by
  simp [ByteReader.counting, h]

theorem loop_delivers {σ ε : Type} (R : ByteReader σ ε) (bs : List Byte) (m i res : Nat)
    (s t : σ) (h : Delivers R s bs t) :
    ReadUintN.loop R (bs.length + m) i res s
      = ReadUintN.loop R m (incN bs.length i) (xorFold i res bs) t := by
  induction bs generalizing i res s with
  | nil => simp only [Delivers] at h; subst h; simp [incN, xorFold]
  | cons x xs ih =>
    obtain ⟨s1, e1, d1⟩ := h
    have : (x :: xs).length + m = (xs.length + m) + 1 := by simp; omega
    rw [this, ReadUintN.loop, e1]
    simp only [List.length_cons, incN, xorFold]
    exact ih _ _ _ d1

theorem ReadUintN_ok {σ ε : Type} (R : ByteReader σ ε) (bs : List Byte) (s t : σ)
    (h : Delivers R s bs t) :
    ReadUintN R s bs.length = ((xorFold 0 0 bs, none), t) := by
  have := loop_delivers R bs 0 0 0 s t h
  simpa [ReadUintN, ReadUintN.loop] using this

theorem ReadUintN_fail {σ ε : Type} (R : ByteReader σ ε) (bs : List Byte) (n : Nat)
    (s t u : σ) (x : Byte) (e : ε) (h : Delivers R s bs t) (hn : bs.length < n)
    (hf : R.ReadByte t = ((x, some e), u)) :
    ReadUintN R s n = ((0, some e), u) := by
  obtain ⟨m, rfl⟩ : ∃ m, n = bs.length + (m + 1) := ⟨n - bs.length - 1, by omega⟩
  rw [ReadUintN, loop_delivers R bs (m + 1) 0 0 s t h, ReadUintN.loop, hf]

/-! ## The dedicated decoders agree with the generic one -/

theorem ReadUint16_eq_ReadUintN {σ ε : Type} (R : ByteReader σ ε) (s : σ) :
    ReadUint16 R s = ReadUintN R s 2 := by
  simp only [ReadUint16, ReadUintN, ReadUintN.loop]
  rcases R.ReadByte s with ⟨⟨b1, _ | e⟩, s1⟩ <;> simp only []
  rcases R.ReadByte s1 with ⟨⟨b2, _ | e⟩, s2⟩ <;> simp only []
  have key := xorFold_zero [b1, b2] (by simp)
  simp only [xorFold, leValue_cons, leValue_nil] at key
  rw [key]
  have h1 := b1.isLt
  have h2 := b2.isLt
  simp only [add16, shl16, Nat.shiftLeft_eq]
  congr 2
  omega

theorem ReadUint32_eq_ReadUintN {σ ε : Type} (R : ByteReader σ ε) (s : σ) :
    ReadUint32 R s = ReadUintN R s 4 := by
  simp only [ReadUint32, ReadUintN, ReadUintN.loop]
  rcases R.ReadByte s with ⟨⟨b1, _ | e⟩, s1⟩ <;> simp only []
  rcases R.ReadByte s1 with ⟨⟨b2, _ | e⟩, s2⟩ <;> simp only []
  rcases R.ReadByte s2 with ⟨⟨b3, _ | e⟩, s3⟩ <;> simp only []
  rcases R.ReadByte s3 with ⟨⟨b4, _ | e⟩, s4⟩ <;> simp only []
  have key := xorFold_zero [b1, b2, b3, b4] (by simp)
  simp only [xorFold, leValue_cons, leValue_nil] at key
  rw [key]
  have h1 := b1.isLt
  have h2 := b2.isLt
  have h3 := b3.isLt
  have h4 := b4.isLt
  simp only [add32, shl32, Nat.shiftLeft_eq]
  congr 2
  omega

theorem ReadUint64_eq_ReadUintN {σ ε : Type} (R : ByteReader σ ε) (s : σ) :
    ReadUint64 R s = ReadUintN R s 8 := by
  simp only [ReadUint64, ReadUintN, ReadUintN.loop]
  rcases R.ReadByte s with ⟨⟨b1, _ | e⟩, s1⟩ <;> simp only []
  rcases R.ReadByte s1 with ⟨⟨b2, _ | e⟩, s2⟩ <;> simp only []
  rcases R.ReadByte s2 with ⟨⟨b3, _ | e⟩, s3⟩ <;> simp only []
  rcases R.ReadByte s3 with ⟨⟨b4, _ | e⟩, s4⟩ <;> simp only []
  rcases R.ReadByte s4 with ⟨⟨b5, _ | e⟩, s5⟩ <;> simp only []
  rcases R.ReadByte s5 with ⟨⟨b6, _ | e⟩, s6⟩ <;> simp only []
  rcases R.ReadByte s6 with ⟨⟨b7, _ | e⟩, s7⟩ <;> simp only []
  rcases R.ReadByte s7 with ⟨⟨b8, _ | e⟩, s8⟩ <;> simp only []
  have key := xorFold_zero [b1, b2, b3, b4, b5, b6, b7, b8] (by simp)
  simp only [xorFold, leValue_cons, leValue_nil] at key
  rw [key]
  have h1 := b1.isLt
  have h2 := b2.isLt
  have h3 := b3.isLt
  have h4 := b4.isLt
  have h5 := b5.isLt
  have h6 := b6.isLt
  have h7 := b7.isLt
  have h8 := b8.isLt
  rw [shl64_lit b2 8 (by decide), shl64_lit b3 16 (by decide), shl64_lit b4 24 (by decide),
    shl64_lit b5 32 (by decide), shl64_lit b6 40 (by decide), shl64_lit b7 48 (by decide),
    shl64_lit b8 56 (by decide)]
  simp (disch := omega) only [add64, Nat.mod_eq_of_lt]
  congr 2
  omega


/-! ## Encoder layout -/

theorem WriteUint64_eq (b : Buffer) (v : Nat) : WriteUint64 b v = b ++ leBytes 8 v := by
  have hr : List.range 8 = [0, 1, 2, 3, 4, 5, 6, 7] := by decide
  simp [WriteUint64, Buffer.WriteByte, leBytes, hr, uint8_and_ff]

theorem WriteUint56_eq (b : Buffer) (v : Nat) : WriteUint56 b v = b ++ leBytes 7 v := by
  have hr : List.range 7 = [0, 1, 2, 3, 4, 5, 6] := by decide
  simp [WriteUint56, Buffer.WriteByte, leBytes, hr, uint8_and_ff]

theorem WriteUint48_eq (b : Buffer) (v : Nat) : WriteUint48 b v = b ++ leBytes 6 v := by
  have hr : List.range 6 = [0, 1, 2, 3, 4, 5] := by decide
  simp [WriteUint48, Buffer.WriteByte, leBytes, hr, uint8_and_ff]

theorem WriteUint40_eq (b : Buffer) (v : Nat) : WriteUint40 b v = b ++ leBytes 5 v := by
  have hr : List.range 5 = [0, 1, 2, 3, 4] := by decide
  simp [WriteUint40, Buffer.WriteByte, leBytes, hr, uint8_and_ff]

theorem WriteUint32_eq (b : Buffer) (v : Nat) : WriteUint32 b v = b ++ leBytes 4 v := by
  have hr : List.range 4 = [0, 1, 2, 3] := by decide
  simp [WriteUint32, Buffer.WriteByte, leBytes, hr, uint8_and_ff]

theorem WriteUint24_eq (b : Buffer) (v : Nat) : WriteUint24 b v = b ++ leBytes 3 v := by
  have hr : List.range 3 = [0, 1, 2] := by decide
  simp [WriteUint24, Buffer.WriteByte, leBytes, hr, uint8_and_ff]

theorem WriteUint16_eq (b : Buffer) (v : Nat) : WriteUint16 b v = b ++ leBytes 2 v := by
  have hr : List.range 2 = [0, 1] := by decide
  simp [WriteUint16, Buffer.WriteByte, leBytes, hr, uint8_and_ff]

theorem leBytes_length (n v : Nat) : (leBytes n v).length = n := by
  simp [leBytes]

theorem leBytes_getD (n v i : Nat) (h : i < n) :
    ((leBytes n v).getD i 0).val = (v >>> (8 * i)) &&& 0xff := by
  simp [leBytes, List.getD_eq_getElem?_getD, List.getElem?_map, List.getElem?_range h,
    uint8_val_and_ff]

theorem leBytes_mod (n v : Nat) : leBytes n (v % 2 ^ (8 * n)) = leBytes n v := by
  unfold leBytes
  apply List.map_congr_left
  intro i hi
  have hi : i < n := List.mem_range.mp hi
  apply Fin.ext
  simp only [uint8_val_and_ff]
  apply Nat.eq_of_testBit_eq
  intro j
  simp only [Nat.testBit_and, Nat.testBit_shiftRight, Nat.testBit_mod_two_pow]
  by_cases hj : j < 8
  · have : 8 * i + j < 8 * n := by omega
    simp [this]
  · have h255 : (255 : Nat) < 2 ^ j := 
      lt_of_lt_of_le (by decide : (255 : Nat) < 2 ^ 8) (Nat.pow_le_pow_right (by decide) (by omega))
    simp [Nat.testBit_lt_two_pow h255]

theorem leValue_leBytes (n v : Nat) : leValue (leBytes n v) = v % 2 ^ (8 * n) := by
  induction n generalizing v with
  | zero => simp [leBytes, leValue_nil, Nat.mod_one]
  | succ n ih =>
    have hcons : leBytes (n + 1) v = uint8 (v &&& 0xff) :: leBytes n (v / 256) := by
      simp only [leBytes, List.range_succ_eq_map, List.map_cons, List.map_map]
      congr 1
      apply List.map_congr_left
      intro i _
      simp only [Function.comp, Nat.shiftRight_eq_div_pow, Nat.succ_eq_add_one]
      rw [Nat.mul_add, Nat.add_comm, Nat.pow_add, ← Nat.div_div_eq_div_mul]
    rw [hcons, leValue_cons, ih, uint8_val_and_ff, and_ff]
    have hp : 2 ^ (8 * (n + 1)) = 256 * 2 ^ (8 * n) := by
      rw [Nat.mul_add, Nat.pow_add]; norm_num [Nat.mul_comm]
    rw [hp, Nat.mod_mul]

theorem appends_leBytes (B : Buffer) (n v : Nat) : Appends B n v (B ++ leBytes n v) := by
  refine ⟨by simp [leBytes_length], by simp, ?_⟩
  intro i hi
  rw [List.getD_append_right _ _ _ _ (by omega)]
  simpa using leBytes_getD n v i hi

theorem read_leBytes {ε : Type} (n v : Nat) (hn : n ≤ 8) (e : ε) :
    ReadUintN Source.reader ⟨leBytes n v, e⟩ n = ((v % 2 ^ (8 * n), none), ⟨[], e⟩) := by
  have hd := Source.delivers (leBytes n v) [] e
  rw [List.append_nil] at hd
  have := ReadUintN_ok Source.reader _ _ _ hd
  rw [leBytes_length] at this
  rw [this, xorFold_zero _ (by rw [leBytes_length]; exact hn), leValue_leBytes]

/-! ## The claims -/

/-- C1: round trip at the dedicated widths. A value of 16, 32 or 64 bits
written by `WriteUint16`, `WriteUint32` or `WriteUint64` into an empty
buffer is returned unchanged and without error by `ReadUint16`,
`ReadUint32`, `ReadUint64` reading the buffer's bytes. -/
theorem roundtrip_dedicated {ε : Type} (e : ε) (v16 v32 v64 : Nat)
    (h16 : v16 < 2 ^ 16) (h32 : v32 < 2 ^ 32) (h64 : v64 < 2 ^ 64) :
    (ReadUint16 Source.reader ⟨WriteUint16 [] v16, e⟩).1 = (v16, none) ∧
    (ReadUint32 Source.reader ⟨WriteUint32 [] v32, e⟩).1 = (v32, none) ∧
    (ReadUint64 Source.reader ⟨WriteUint64 [] v64, e⟩).1 = (v64, none) := by
  refine ⟨?_, ?_, ?_⟩
  · rw [ReadUint16_eq_ReadUintN, WriteUint16_eq, List.nil_append, read_leBytes 2 v16 (by decide),
      Nat.mod_eq_of_lt h16]
  · rw [ReadUint32_eq_ReadUintN, WriteUint32_eq, List.nil_append, read_leBytes 4 v32 (by decide),
      Nat.mod_eq_of_lt h32]
  · rw [ReadUint64_eq_ReadUintN, WriteUint64_eq, List.nil_append, read_leBytes 8 v64 (by decide),
      Nat.mod_eq_of_lt h64]

/-- Witness of C1: the values `0x0102`, `0x01020304` and
`0x0102030405060708` survive the round trip. -/
theorem roundtrip_dedicated_witness :
    (ReadUint16 Source.reader (⟨WriteUint16 [] 0x0102, ()⟩ : Source Unit)).1 = (0x0102, none) ∧
    (ReadUint32 Source.reader (⟨WriteUint32 [] 0x01020304, ()⟩ : Source Unit)).1
      = (0x01020304, none) ∧
    (ReadUint64 Source.reader (⟨WriteUint64 [] 0x0102030405060708, ()⟩ : Source Unit)).1
      = (0x0102030405060708, none) :=
  roundtrip_dedicated () 0x0102 0x01020304 0x0102030405060708
    (by decide) (by decide) (by decide)

/-- C2: round trip through the generic reader at every width. A value
below `2 ^ W` written by `WriteUintW` into an empty buffer is returned
unchanged and without error by `ReadUintN` with length `W / 8` reading
the buffer's bytes, for `W` = 16, 24, 32, 40, 48, 56 and 64. -/
theorem roundtrip_generic {ε : Type} (e : ε) (v16 v24 v32 v40 v48 v56 v64 : Nat)
    (h16 : v16 < 2 ^ 16) (h24 : v24 < 2 ^ 24) (h32 : v32 < 2 ^ 32) (h40 : v40 < 2 ^ 40)
    (h48 : v48 < 2 ^ 48) (h56 : v56 < 2 ^ 56) (h64 : v64 < 2 ^ 64) :
    (ReadUintN Source.reader ⟨WriteUint16 [] v16, e⟩ 2).1 = (v16, none) ∧
    (ReadUintN Source.reader ⟨WriteUint24 [] v24, e⟩ 3).1 = (v24, none) ∧
    (ReadUintN Source.reader ⟨WriteUint32 [] v32, e⟩ 4).1 = (v32, none) ∧
    (ReadUintN Source.reader ⟨WriteUint40 [] v40, e⟩ 5).1 = (v40, none) ∧
    (ReadUintN Source.reader ⟨WriteUint48 [] v48, e⟩ 6).1 = (v48, none) ∧
    (ReadUintN Source.reader ⟨WriteUint56 [] v56, e⟩ 7).1 = (v56, none) ∧
    (ReadUintN Source.reader ⟨WriteUint64 [] v64, e⟩ 8).1 = (v64, none) := by
  refine ⟨?_, ?_, ?_, ?_, ?_, ?_, ?_⟩
  · rw [WriteUint16_eq, List.nil_append, read_leBytes 2 v16 (by decide), Nat.mod_eq_of_lt h16]
  · rw [WriteUint24_eq, List.nil_append, read_leBytes 3 v24 (by decide), Nat.mod_eq_of_lt h24]
  · rw [WriteUint32_eq, List.nil_append, read_leBytes 4 v32 (by decide), Nat.mod_eq_of_lt h32]
  · rw [WriteUint40_eq, List.nil_append, read_leBytes 5 v40 (by decide), Nat.mod_eq_of_lt h40]
  · rw [WriteUint48_eq, List.nil_append, read_leBytes 6 v48 (by decide), Nat.mod_eq_of_lt h48]
  · rw [WriteUint56_eq, List.nil_append, read_leBytes 7 v56 (by decide), Nat.mod_eq_of_lt h56]
  · rw [WriteUint64_eq, List.nil_append, read_leBytes 8 v64 (by decide), Nat.mod_eq_of_lt h64]

/-- Witness of C2: the largest value of each width survives the round
trip through the generic reader. -/
theorem roundtrip_generic_witness :
    (ReadUintN Source.reader (⟨WriteUint16 [] 0xffff, ()⟩ : Source Unit) 2).1
      = (0xffff, none) ∧
    (ReadUintN Source.reader (⟨WriteUint24 [] 0xffffff, ()⟩ : Source Unit) 3).1
      = (0xffffff, none) ∧
    (ReadUintN Source.reader (⟨WriteUint32 [] 0xffffffff, ()⟩ : Source Unit) 4).1
      = (0xffffffff, none) ∧
    (ReadUintN Source.reader (⟨WriteUint40 [] 0xffffffffff, ()⟩ : Source Unit) 5).1
      = (0xffffffffff, none) ∧
    (ReadUintN Source.reader (⟨WriteUint48 [] 0xffffffffffff, ()⟩ : Source Unit) 6).1
      = (0xffffffffffff, none) ∧
    (ReadUintN Source.reader (⟨WriteUint56 [] 0xffffffffffffff, ()⟩ : Source Unit) 7).1
      = (0xffffffffffffff, none) ∧
    (ReadUintN Source.reader (⟨WriteUint64 [] 0xffffffffffffffff, ()⟩ : Source Unit) 8).1
      = (0xffffffffffffffff, none) :=
  roundtrip_generic () 0xffff 0xffffff 0xffffffff 0xffffffffff 0xffffffffffff
    0xffffffffffffff 0xffffffffffffffff
    (by decide) (by decide) (by decide) (by decide) (by decide) (by decide) (by decide)

/-- C3: encode layout. For every width `W` the buffer after
`WriteUintW B v` is `B` followed by exactly `W / 8` new bytes, new byte
`i` being `(v >> (8*i)) & 0xFF`; `B` itself is unchanged and the length
grows by `W / 8`. It holds for every natural `v`, hence for every value
of the argument type. `WriteUint64` of `0x0102030405060708` appends
`08 07 06 05 04 03 02 01`. -/
theorem encode_layout (B : Buffer) (v : Nat) :
    Appends B 2 v (WriteUint16 B v) ∧ Appends B 3 v (WriteUint24 B v) ∧
    Appends B 4 v (WriteUint32 B v) ∧ Appends B 5 v (WriteUint40 B v) ∧
    Appends B 6 v (WriteUint48 B v) ∧ Appends B 7 v (WriteUint56 B v) ∧
    Appends B 8 v (WriteUint64 B v) ∧
    WriteUint64 B 0x0102030405060708 = B ++ [8, 7, 6, 5, 4, 3, 2, 1] := by
  refine ⟨?_, ?_, ?_, ?_, ?_, ?_, ?_, ?_⟩
  · rw [WriteUint16_eq]; exact appends_leBytes B 2 v
  · rw [WriteUint24_eq]; exact appends_leBytes B 3 v
  · rw [WriteUint32_eq]; exact appends_leBytes B 4 v
  · rw [WriteUint40_eq]; exact appends_leBytes B 5 v
  · rw [WriteUint48_eq]; exact appends_leBytes B 6 v
  · rw [WriteUint56_eq]; exact appends_leBytes B 7 v
  · rw [WriteUint64_eq]; exact appends_leBytes B 8 v
  · rw [WriteUint64_eq]
    congr 1

/-- C5: truncation on encode overflow. `WriteUint24` appends the same
bytes for `v` as for `v mod 2^24`, and `WriteUint40`, `WriteUint48`,
`WriteUint56` the same bytes for `v` as for `v mod 2^W`; the encoders
have no error result. `WriteUint24` of `0x1FFFFFF` gives the bytes of
`0xFFFFFF`. -/
theorem encode_truncates (B : Buffer) (v : Nat) :
    WriteUint24 B v = WriteUint24 B (v % 2 ^ 24) ∧
    WriteUint40 B v = WriteUint40 B (v % 2 ^ 40) ∧
    WriteUint48 B v = WriteUint48 B (v % 2 ^ 48) ∧
    WriteUint56 B v = WriteUint56 B (v % 2 ^ 56) ∧
    WriteUint24 B 0x1FFFFFF = WriteUint24 B 0xFFFFFF := by
  refine ⟨?_, ?_, ?_, ?_, ?_⟩
  · rw [WriteUint24_eq, WriteUint24_eq, ← leBytes_mod 3 v]
  · rw [WriteUint40_eq, WriteUint40_eq, ← leBytes_mod 5 v]
  · rw [WriteUint48_eq, WriteUint48_eq, ← leBytes_mod 6 v]
  · rw [WriteUint56_eq, WriteUint56_eq, ← leBytes_mod 7 v]
  · rw [WriteUint24_eq, WriteUint24_eq]
    congr 1


theorem leValue_snoc (a : List Byte) (x : Byte) :
    leValue (a ++ [x]) = leValue a + x.val <<< (8 * a.length) := by
  simp only [leValue, List.length_append, List.length_singleton, Finset.sum_range_succ]
  congr 1
  · apply Finset.sum_congr rfl
    intro i hi
    have hi : i < a.length := Finset.mem_range.mp hi
    rw [List.getD_append _ _ _ _ hi]
  · rw [List.getD_append_right _ _ _ _ (le_refl _)]
    simp [Nat.shiftLeft_eq, Nat.pow_mul]

theorem ReadUintN_value {σ ε : Type} (R : ByteReader σ ε) (bs : List Byte) (s t : σ)
    (h : Delivers R s bs t) (hlen : bs.length ≤ 8) :
    ReadUintN R s bs.length = ((leValue bs, none), t) := by
  rw [ReadUintN_ok R bs s t h, xorFold_zero bs hlen]

/-- C4: decode value. When the source delivers the bytes `p` next,
`ReadUint16` (for two bytes), `ReadUint32` (four) and `ReadUint64`
(eight) return no error and the exact sum of `b_i * 256 ^ i`, first byte
least significant. The additions lose nothing: the exact sum is below
`2 ^ W`, and at every step the sum so far and the next term
`b_i << (8*i)` have no bit in common, so no addition carries. -/
theorem decode_value {σ ε : Type} (R : ByteReader σ ε) (s t : σ) (p : List Byte)
    (hd : Delivers R s p t) :
    (p.length = 2 → ReadUint16 R s = ((leValue p, none), t) ∧ leValue p < 2 ^ 16) ∧
    (p.length = 4 → ReadUint32 R s = ((leValue p, none), t) ∧ leValue p < 2 ^ 32) ∧
    (p.length = 8 → ReadUint64 R s = ((leValue p, none), t) ∧ leValue p < 2 ^ 64) ∧
    (∀ (a : List Byte) (x : Byte),
      leValue (a ++ [x]) = leValue a + x.val <<< (8 * a.length) ∧
      leValue a &&& (x.val <<< (8 * a.length)) = 0) := by
  refine ⟨?_, ?_, ?_, ?_⟩
  · intro hl
    have hv := ReadUintN_value R p s t hd (by omega)
    have hb := leValue_lt p
    rw [hl] at hv hb
    exact ⟨by rw [ReadUint16_eq_ReadUintN, hv], hb⟩
  · intro hl
    have hv := ReadUintN_value R p s t hd (by omega)
    have hb := leValue_lt p
    rw [hl] at hv hb
    exact ⟨by rw [ReadUint32_eq_ReadUintN, hv], hb⟩
  · intro hl
    have hv := ReadUintN_value R p s t hd (by omega)
    have hb := leValue_lt p
    rw [hl] at hv hb
    exact ⟨by rw [ReadUint64_eq_ReadUintN, hv], hb⟩
  · intro a x
    exact ⟨leValue_snoc a x, and_disjoint _ _ _ (leValue_lt a)⟩

/-- Witness of C4: sources holding `01 02`, `01 02 03 04` and
`08 07 06 05 04 03 02 01` followed by further bytes. -/
theorem decode_value_witness :
    ReadUint16 Source.reader (⟨[1, 2, 9], ()⟩ : Source Unit)
      = ((0x0201, none), ⟨[9], ()⟩) ∧
    ReadUint32 Source.reader (⟨[1, 2, 3, 4, 9], ()⟩ : Source Unit)
      = ((0x04030201, none), ⟨[9], ()⟩) ∧
    ReadUint64 Source.reader (⟨[8, 7, 6, 5, 4, 3, 2, 1, 9], ()⟩ : Source Unit)
      = ((0x0102030405060708, none), ⟨[9], ()⟩) :=
  ⟨((decode_value Source.reader _ _ [1, 2] (Source.delivers [1, 2] [9] ())).1 rfl).1,
   ((decode_value Source.reader _ _ [1, 2, 3, 4]
      (Source.delivers [1, 2, 3, 4] [9] ())).2.1 rfl).1,
   ((decode_value Source.reader _ _ [8, 7, 6, 5, 4, 3, 2, 1]
      (Source.delivers [8, 7, 6, 5, 4, 3, 2, 1] [9] ())).2.2.1 rfl).1⟩

/-- C6: exhaustion failure without partial result. When the source
delivers the bytes `bs` and then answers the next call with the error
`e`, every decoder that needs more than `bs.length` bytes returns the
integer `0` together with exactly `e`, whatever the bytes `bs` were:
`ReadUint16`, `ReadUint32`, `ReadUint64` and `ReadUintN` at any length
`n > bs.length`. -/
theorem exhaustion_returns_zero {σ ε : Type} (R : ByteReader σ ε) (s t u : σ)
    (bs : List Byte) (x : Byte) (e : ε)
    (hd : Delivers R s bs t) (hf : R.ReadByte t = ((x, some e), u)) :
    (bs.length < 2 → (ReadUint16 R s).1 = (0, some e)) ∧
    (bs.length < 4 → (ReadUint32 R s).1 = (0, some e)) ∧
    (bs.length < 8 → (ReadUint64 R s).1 = (0, some e)) ∧
    (∀ n, bs.length < n → (ReadUintN R s n).1 = (0, some e)) := by
  refine ⟨?_, ?_, ?_, ?_⟩
  · intro h; rw [ReadUint16_eq_ReadUintN, ReadUintN_fail R bs 2 s t u x e hd h hf]
  · intro h; rw [ReadUint32_eq_ReadUintN, ReadUintN_fail R bs 4 s t u x e hd h hf]
  · intro h; rw [ReadUint64_eq_ReadUintN, ReadUintN_fail R bs 8 s t u x e hd h hf]
  · intro n h; rw [ReadUintN_fail R bs n s t u x e hd h hf]

/-- Witness of C6: `ReadUint32` and `ReadUintN` with length 4 on a source
of three bytes. -/
theorem exhaustion_returns_zero_witness :
    (ReadUint32 Source.reader (⟨[1, 2, 3], "EOF"⟩ : Source String)).1 = (0, some "EOF") ∧
    (ReadUintN Source.reader (⟨[1, 2, 3], "EOF"⟩ : Source String) 4).1 = (0, some "EOF") :=
  ⟨(exhaustion_returns_zero Source.reader ⟨[1, 2, 3], "EOF"⟩ ⟨[], "EOF"⟩ ⟨[], "EOF"⟩ [1, 2, 3] 0
      "EOF" (Source.delivers [1, 2, 3] [] "EOF") rfl).2.1 (by decide),
   (exhaustion_returns_zero Source.reader ⟨[1, 2, 3], "EOF"⟩ ⟨[], "EOF"⟩ ⟨[], "EOF"⟩ [1, 2, 3] 0
      "EOF" (Source.delivers [1, 2, 3] [] "EOF") rfl).2.2.2 4 (by decide)⟩

/-- C7: generic reader equivalence. On every byte reader and in every
state, long enough or not, `ReadUintN` with length 2, 4, 8 returns the
same value, the same error and the same reader state as `ReadUint16`,
`ReadUint32`, `ReadUint64`. -/
theorem generic_reader_equivalence {σ ε : Type} (R : ByteReader σ ε) (s : σ) :
    ReadUintN R s 2 = ReadUint16 R s ∧ ReadUintN R s 4 = ReadUint32 R s ∧
    ReadUintN R s 8 = ReadUint64 R s :=
  ⟨(ReadUint16_eq_ReadUintN R s).symm, (ReadUint32_eq_ReadUintN R s).symm,
    (ReadUint64_eq_ReadUintN R s).symm⟩

/-- C8: generic reader value. When the source delivers the `N ≤ 8` bytes
`bs` next, `ReadUintN` with length `N` makes exactly `N` calls of
`ReadByte`, returns no error and the XOR-accumulated value; that value is
the sum of `b_i * 256 ^ i` and is below `2 ^ (8 * N)`. With length 0 it
returns 0 without any call, whatever the reader would answer. -/
theorem generic_reader_value {σ ε : Type} (R : ByteReader σ ε) (s t : σ) (bs : List Byte)
    (c : Nat) (hd : Delivers R s bs t) (hN : bs.length ≤ 8) :
    ReadUintN R.counting (s, c) bs.length = ((xorFold 0 0 bs, none), (t, c + bs.length)) ∧
    xorFold 0 0 bs = leValue bs ∧ leValue bs < 2 ^ (8 * bs.length) ∧
    (∀ s0 : σ, ReadUintN R.counting (s0, c) 0 = ((0, none), (s0, c))) :=
  ⟨ReadUintN_ok R.counting bs (s, c) (t, c + bs.length) (hd.counting c),
    xorFold_zero bs hN, leValue_lt bs, fun _ => rfl⟩

/-- Witness of C8: three bytes read from a source of four. -/
theorem generic_reader_value_witness :
    ReadUintN Source.reader.counting ((⟨[1, 2, 3, 4], ()⟩ : Source Unit), 0) 3
      = ((0x030201, none), (⟨[4], ()⟩, 3)) :=
  (generic_reader_value Source.reader ⟨[1, 2, 3, 4], ()⟩ ⟨[4], ()⟩ [1, 2, 3] 0
    (Source.delivers [1, 2, 3] [4] ()) (by decide)).1

/-- C9: exact consumption on success. On a source holding `p ++ r`, a
decoder that needs `p.length` bytes makes exactly that many `ReadByte`
calls and leaves the source holding exactly `r`; its value is computed
from `p` alone. This holds for `ReadUint16`, `ReadUint32`, `ReadUint64`
(with 2, 4, 8 bytes in `p`) and for `ReadUintN` with length `p.length`. -/
theorem exact_consumption {ε : Type} (p r : List Byte) (e : ε) (c : Nat) :
    (p.length = 2 → ReadUint16 Source.reader.counting (⟨p ++ r, e⟩, c)
      = ((leValue p, none), (⟨r, e⟩, c + 2))) ∧
    (p.length = 4 → ReadUint32 Source.reader.counting (⟨p ++ r, e⟩, c)
      = ((leValue p, none), (⟨r, e⟩, c + 4))) ∧
    (p.length = 8 → ReadUint64 Source.reader.counting (⟨p ++ r, e⟩, c)
      = ((leValue p, none), (⟨r, e⟩, c + 8))) ∧
    ReadUintN Source.reader.counting (⟨p ++ r, e⟩, c) p.length
      = ((xorFold 0 0 p, none), (⟨r, e⟩, c + p.length)) := by
  have hd := (Source.delivers p r e).counting c
  refine ⟨?_, ?_, ?_, ReadUintN_ok _ p _ _ hd⟩
  · intro hl
    have hv := ReadUintN_value _ p _ _ hd (by omega)
    rw [hl] at hv
    rw [ReadUint16_eq_ReadUintN, hv]
  · intro hl
    have hv := ReadUintN_value _ p _ _ hd (by omega)
    rw [hl] at hv
    rw [ReadUint32_eq_ReadUintN, hv]
  · intro hl
    have hv := ReadUintN_value _ p _ _ hd (by omega)
    rw [hl] at hv
    rw [ReadUint64_eq_ReadUintN, hv]

/-- Witness of C9: `ReadUint16` on a source holding `01 02` followed by
`03 04`. -/
theorem exact_consumption_witness :
    ReadUint16 Source.reader.counting ((⟨[1, 2, 3, 4], ()⟩ : Source Unit), 0)
      = ((0x0201, none), (⟨[3, 4], ()⟩, 2)) :=
  (exact_consumption [1, 2] [3, 4] () 0).1 rfl

/-- C10: no rollback and no retry on failure. When the source delivers
the `k` bytes `bs` and then answers the next call with an error, leaving
the reader in state `u`, every decoder that needs more than `k` bytes
ends in exactly that state `u` after exactly `k + 1` calls of `ReadByte`:
the `k` bytes stay consumed and the failing call is made once. -/
theorem no_rollback_no_retry {σ ε : Type} (R : ByteReader σ ε) (s t u : σ)
    (bs : List Byte) (x : Byte) (e : ε) (c : Nat)
    (hd : Delivers R s bs t) (hf : R.ReadByte t = ((x, some e), u)) :
    (bs.length < 2 → (ReadUint16 R.counting (s, c)).2 = (u, c + bs.length + 1)) ∧
    (bs.length < 4 → (ReadUint32 R.counting (s, c)).2 = (u, c + bs.length + 1)) ∧
    (bs.length < 8 → (ReadUint64 R.counting (s, c)).2 = (u, c + bs.length + 1)) ∧
    (∀ n, bs.length < n → (ReadUintN R.counting (s, c) n).2 = (u, c + bs.length + 1)) := by
  have hd2 := hd.counting c
  have hf2 := counting_fails hf (c + bs.length)
  refine ⟨?_, ?_, ?_, ?_⟩
  · intro h; rw [ReadUint16_eq_ReadUintN, ReadUintN_fail _ bs 2 _ _ _ x e hd2 h hf2]
  · intro h; rw [ReadUint32_eq_ReadUintN, ReadUintN_fail _ bs 4 _ _ _ x e hd2 h hf2]
  · intro h; rw [ReadUint64_eq_ReadUintN, ReadUintN_fail _ bs 8 _ _ _ x e hd2 h hf2]
  · intro n h; rw [ReadUintN_fail _ bs n _ _ _ x e hd2 h hf2]

/-- Witness of C10: `ReadUint64` on a source of three bytes makes four
calls and leaves the source empty. -/
theorem no_rollback_no_retry_witness :
    (ReadUint64 Source.reader.counting ((⟨[1, 2, 3], "EOF"⟩ : Source String), 0)).2
      = (⟨[], "EOF"⟩, 4) :=
  (no_rollback_no_retry Source.reader ⟨[1, 2, 3], "EOF"⟩ ⟨[], "EOF"⟩ ⟨[], "EOF"⟩ [1, 2, 3] 0
    "EOF" 0 (Source.delivers [1, 2, 3] [] "EOF") rfl).2.2.1 (by decide)

/-! ## Decoding followed by encoding -/

theorem leBytes_succ (n v : Nat) :
    leBytes (n + 1) v = uint8 (v &&& 0xff) :: leBytes n (v / 256) := by
  simp only [leBytes, List.range_succ_eq_map, List.map_cons, List.map_map]
  congr 1
  apply List.map_congr_left
  intro i _
  simp only [Function.comp, Nat.shiftRight_eq_div_pow, Nat.succ_eq_add_one]
  rw [Nat.mul_add, Nat.add_comm, Nat.pow_add, ← Nat.div_div_eq_div_mul]

theorem leBytes_leValue (bs : List Byte) : leBytes bs.length (leValue bs) = bs := by
  induction bs with
  | nil => simp [leBytes]
  | cons x xs ih =>
    have hx := x.isLt
    have h1 : (x.val + 256 * leValue xs) / 256 = leValue xs := by omega
    have h2 : uint8 ((x.val + 256 * leValue xs) &&& 0xff) = x := by
      apply Fin.ext
      rw [uint8_val_and_ff, and_ff]
      omega
    rw [List.length_cons, leBytes_succ, leValue_cons, h1, h2, ih]

theorem leBytes_take (m n v : Nat) (h : m ≤ n) : (leBytes n v).take m = leBytes m v := by
  simp only [leBytes, ← List.map_take, List.take_range, Nat.min_eq_left h]

/-- C11: mutual inverses, decode then encode. When the source delivers
the bytes `bs` of length `W / 8`, writing the value decoded by `ReadUintN`
with length `W / 8`, or by the dedicated `ReadUintW` for `W` = 16, 32, 64,
with `WriteUintW` into an empty buffer reproduces exactly `bs`, for `W` =
16, 24, 32, 40, 48, 56 and 64. The decoded value is below `2 ^ W`, so it
is a value of the encoder's argument type. -/
theorem decode_then_encode {σ ε : Type} (R : ByteReader σ ε) (s t : σ) (bs : List Byte)
    (hd : Delivers R s bs t) :
    (bs.length = 2 → WriteUint16 [] (ReadUintN R s 2).1.1 = bs ∧
      WriteUint16 [] (ReadUint16 R s).1.1 = bs) ∧
    (bs.length = 3 → WriteUint24 [] (ReadUintN R s 3).1.1 = bs) ∧
    (bs.length = 4 → WriteUint32 [] (ReadUintN R s 4).1.1 = bs ∧
      WriteUint32 [] (ReadUint32 R s).1.1 = bs) ∧
    (bs.length = 5 → WriteUint40 [] (ReadUintN R s 5).1.1 = bs) ∧
    (bs.length = 6 → WriteUint48 [] (ReadUintN R s 6).1.1 = bs) ∧
    (bs.length = 7 → WriteUint56 [] (ReadUintN R s 7).1.1 = bs) ∧
    (bs.length = 8 → WriteUint64 [] (ReadUintN R s 8).1.1 = bs ∧
      WriteUint64 [] (ReadUint64 R s).1.1 = bs) ∧
    (bs.length ≤ 8 → (ReadUintN R s bs.length).1.1 < 2 ^ (8 * bs.length)) := by
  have key : ∀ n, bs.length = n → n ≤ 8 →
      (ReadUintN R s n).1.1 = leValue bs ∧ leBytes n (leValue bs) = bs := by
    intro n hn h8
    subst hn
    exact ⟨by rw [ReadUintN_value R bs s t hd h8], leBytes_leValue bs⟩
  refine ⟨?_, ?_, ?_, ?_, ?_, ?_, ?_, ?_⟩
  rotate_right
  · intro h
    rw [ReadUintN_value R bs s t hd h]
    exact leValue_lt bs
  · intro h
    obtain ⟨h1, h2⟩ := key 2 h (by decide)
    rw [ReadUint16_eq_ReadUintN, h1, WriteUint16_eq, List.nil_append, h2]
    exact ⟨rfl, rfl⟩
  · intro h
    obtain ⟨h1, h2⟩ := key 3 h (by decide)
    rw [h1, WriteUint24_eq, List.nil_append, h2]
  · intro h
    obtain ⟨h1, h2⟩ := key 4 h (by decide)
    rw [ReadUint32_eq_ReadUintN, h1, WriteUint32_eq, List.nil_append, h2]
    exact ⟨rfl, rfl⟩
  · intro h
    obtain ⟨h1, h2⟩ := key 5 h (by decide)
    rw [h1, WriteUint40_eq, List.nil_append, h2]
  · intro h
    obtain ⟨h1, h2⟩ := key 6 h (by decide)
    rw [h1, WriteUint48_eq, List.nil_append, h2]
  · intro h
    obtain ⟨h1, h2⟩ := key 7 h (by decide)
    rw [h1, WriteUint56_eq, List.nil_append, h2]
  · intro h
    obtain ⟨h1, h2⟩ := key 8 h (by decide)
    rw [ReadUint64_eq_ReadUintN, h1, WriteUint64_eq, List.nil_append, h2]
    exact ⟨rfl, rfl⟩

/-- Witness of C11: the bytes `ff 00 80` decoded at length 3 and written
back with `WriteUint24`, and `01 02 03 04 05 06 07 08` through
`ReadUint64` and `WriteUint64`. -/
theorem decode_then_encode_witness :
    WriteUint24 [] (ReadUintN Source.reader (⟨[0xff, 0, 0x80], ()⟩ : Source Unit) 3).1.1
      = [0xff, 0, 0x80] ∧
    WriteUint64 []
        (ReadUint64 Source.reader (⟨[1, 2, 3, 4, 5, 6, 7, 8], ()⟩ : Source Unit)).1.1
      = [1, 2, 3, 4, 5, 6, 7, 8] :=
  ⟨(decode_then_encode Source.reader _ _ [0xff, 0, 0x80]
      (Source.delivers [0xff, 0, 0x80] [] ())).2.1 rfl,
   ((decode_then_encode Source.reader _ _ [1, 2, 3, 4, 5, 6, 7, 8]
      (Source.delivers [1, 2, 3, 4, 5, 6, 7, 8] [] ())).2.2.2.2.2.2.1 rfl).2⟩

/-! ## Sortable slice -/

theorem index_natCast (s : Uint32Slice) (n : Nat) : s.index (n : Int) = s[n]? := by
  simp [Uint32Slice.index]

theorem index_of_lt (s : Uint32Slice) (n : Nat) (h : n < s.length) :
    s.index (n : Int) = some s[n] := by
  rw [index_natCast, List.getElem?_eq_getElem h]

theorem index_set (s : Uint32Slice) (n m a : Nat) :
    Uint32Slice.index (s.set n a) (m : Int)
      = if n = m then (if m < s.length then some a else none) else s.index (m : Int) := by
  rw [index_natCast, index_natCast, List.getElem?_set]
  split_ifs <;> simp_all

theorem position_eq_natCast (s : Uint32Slice) (i : Int) (h0 : 0 ≤ i) (h1 : i < s.Len) :
    ∃ n : Nat, i = (n : Int) ∧ n < s.length := by
  refine ⟨i.toNat, (Int.toNat_of_nonneg h0).symm, ?_⟩
  have : (i.toNat : Int) < (s.length : Int) := by rw [Int.toNat_of_nonneg h0]; exact h1
  exact_mod_cast this

theorem Less_of_lt (s : Uint32Slice) (i j : Nat) (hi : i < s.length) (hj : j < s.length) :
    s.Less (i : Int) (j : Int) = some (decide (s[i] < s[j])) := by
  simp [Uint32Slice.Less, index_of_lt s i hi, index_of_lt s j hj]

theorem Swap_of_lt (s : Uint32Slice) (i j : Nat) (hi : i < s.length) (hj : j < s.length) :
    s.Swap (i : Int) (j : Int) = some ((s.set i s[j]).set j s[i]) := by
  simp [Uint32Slice.Swap, index_of_lt s i hi, index_of_lt s j hj]

theorem set_set_perm (s : List Nat) (i j : Nat) (hi : i < s.length) (hj : j < s.length) :
    ((s.set i s[j]).set j s[i]).Perm s := by
  rw [List.perm_iff_count]
  intro c
  have h1 : j < (s.set i s[j]).length := by simpa using hj
  rw [List.count_set _ _ _ _ h1, List.count_set _ _ _ _ hi]
  have pi : s[i] = c → 0 < s.count c := fun h => List.count_pos_iff.mpr (h ▸ List.getElem_mem _)
  have pj : s[j] = c → 0 < s.count c := fun h => List.count_pos_iff.mpr (h ▸ List.getElem_mem _)
  simp only [List.getElem_set, beq_iff_eq]
  by_cases hij : i = j
  · subst hij
    simp only [if_true]
    split_ifs <;> omega
  · simp only [hij, if_false]
    split_ifs <;> omega

/-- C16: `Less` is the strict numeric order on the stored values. For
positions `i`, `j`, `k` of `s` (`0 ≤ i < Len(s)`), `Less(i, j)` does not
panic and holds exactly when `s[i] < s[j]`; it is irreflexive, asymmetric
and transitive, and of `Less(i, j)`, `Less(j, i)`, `s[i] = s[j]` exactly
one holds, so positions with equal values are tied. -/
theorem less_is_strict_order (s : Uint32Slice) (i j k : Int)
    (hi0 : 0 ≤ i) (hi : i < s.Len) (hj0 : 0 ≤ j) (hj : j < s.Len)
    (hk0 : 0 ≤ k) (hk : k < s.Len) :
    ∃ a b c, s.index i = some a ∧ s.index j = some b ∧ s.index k = some c ∧
      s.Less i j = some (decide (a < b)) ∧ (s.Less i j = some true ↔ a < b) ∧
      s.Less i i = some false ∧
      (s.Less i j = some true → s.Less j i = some false) ∧
      (s.Less i j = some true → s.Less j k = some true → s.Less i k = some true) ∧
      ((s.Less i j = some true ∧ s.Less j i = some false ∧ a ≠ b) ∨
       (s.Less i j = some false ∧ s.Less j i = some true ∧ a ≠ b) ∨
       (s.Less i j = some false ∧ s.Less j i = some false ∧ a = b)) := by
  obtain ⟨ni, rfl, hni⟩ := position_eq_natCast s i hi0 hi
  obtain ⟨nj, rfl, hnj⟩ := position_eq_natCast s j hj0 hj
  obtain ⟨nk, rfl, hnk⟩ := position_eq_natCast s k hk0 hk
  refine ⟨s[ni], s[nj], s[nk], index_of_lt s ni hni, index_of_lt s nj hnj,
    index_of_lt s nk hnk, Less_of_lt s ni nj hni hnj, ?_, ?_, ?_, ?_, ?_⟩
  · simp [Less_of_lt s ni nj hni hnj]
  · simp [Less_of_lt s ni ni hni hni]
  · simp only [Less_of_lt s ni nj hni hnj, Less_of_lt s nj ni hnj hni, Option.some.injEq,
      decide_eq_true_eq, decide_eq_false_iff_not]
    omega
  · simp only [Less_of_lt s ni nj hni hnj, Less_of_lt s nj nk hnj hnk,
      Less_of_lt s ni nk hni hnk, Option.some.injEq, decide_eq_true_eq]
    omega
  · simp only [Less_of_lt s ni nj hni hnj, Less_of_lt s nj ni hnj hni, Option.some.injEq,
      decide_eq_true_eq, decide_eq_false_iff_not]
    omega

/-- Witness of C16: positions 0, 1 and 2 of the slice `5, 7, 5`, where
the first is less than the second and tied with the third. -/
theorem less_is_strict_order_witness :
    ∃ a b c, Uint32Slice.index [5, 7, 5] 0 = some a ∧ Uint32Slice.index [5, 7, 5] 1 = some b ∧
      Uint32Slice.index [5, 7, 5] 2 = some c ∧
      Uint32Slice.Less [5, 7, 5] 0 1 = some (decide (a < b)) ∧
      (Uint32Slice.Less [5, 7, 5] 0 1 = some true ↔ a < b) ∧
      Uint32Slice.Less [5, 7, 5] 0 0 = some false ∧
      (Uint32Slice.Less [5, 7, 5] 0 1 = some true →
        Uint32Slice.Less [5, 7, 5] 1 0 = some false) ∧
      (Uint32Slice.Less [5, 7, 5] 0 1 = some true →
        Uint32Slice.Less [5, 7, 5] 1 2 = some true →
        Uint32Slice.Less [5, 7, 5] 0 2 = some true) ∧
      ((Uint32Slice.Less [5, 7, 5] 0 1 = some true ∧
          Uint32Slice.Less [5, 7, 5] 1 0 = some false ∧ a ≠ b) ∨
       (Uint32Slice.Less [5, 7, 5] 0 1 = some false ∧
          Uint32Slice.Less [5, 7, 5] 1 0 = some true ∧ a ≠ b) ∨
       (Uint32Slice.Less [5, 7, 5] 0 1 = some false ∧
          Uint32Slice.Less [5, 7, 5] 1 0 = some false ∧ a = b)) :=
  less_is_strict_order [5, 7, 5] 0 1 2 (by decide) (by decide) (by decide)
    (by decide) (by decide) (by decide)

/-- C17: `Swap` exchanges exactly two positions in place. For positions
`i`, `j` of `s` (`0 ≤ i < Len(s)`), `Swap(i, j)` does not panic and
yields `s2` with `s2[i] = s[j]`, `s2[j] = s[i]`, every other position
unchanged and the same length; `s2` is a permutation of `s`, and a second
`Swap(i, j)` restores `s`. -/
theorem swap_exchanges_two (s : Uint32Slice) (i j : Int)
    (hi0 : 0 ≤ i) (hi : i < s.Len) (hj0 : 0 ≤ j) (hj : j < s.Len) :
    ∃ s2, s.Swap i j = some s2 ∧ s2.index i = s.index j ∧ s2.index j = s.index i ∧
      (∀ k : Int, k ≠ i → k ≠ j → s2.index k = s.index k) ∧
      s2.Len = s.Len ∧ s2.Perm s ∧ s2.Swap i j = some s := by
  obtain ⟨ni, rfl, hni⟩ := position_eq_natCast s i hi0 hi
  obtain ⟨nj, rfl, hnj⟩ := position_eq_natCast s j hj0 hj
  have hlen : ((s.set ni s[nj]).set nj s[ni]).length = s.length := by simp
  refine ⟨(s.set ni s[nj]).set nj s[ni], Swap_of_lt s ni nj hni hnj, ?_, ?_, ?_, ?_,
    set_set_perm s ni nj hni hnj, ?_⟩
  · rw [index_set, index_set, index_of_lt s nj hnj]
    by_cases h : nj = ni
    · subst h; simp [hni]
    · have h2 : ¬ ni = nj := fun e => h e.symm
      simp [h, hni]
  · rw [index_set, index_of_lt s ni hni]
    simp [hnj]
  · intro k hki hkj
    by_cases hk0 : 0 ≤ k
    · obtain ⟨nk, rfl⟩ : ∃ nk : Nat, k = (nk : Int) := ⟨k.toNat, (Int.toNat_of_nonneg hk0).symm⟩
      have h1 : ¬ ni = nk := fun e => hki (by rw [e])
      have h2 : ¬ nj = nk := fun e => hkj (by rw [e])
      rw [index_set, index_set]
      simp [h1, h2]
    · simp [Uint32Slice.index, hk0]
  · simp [Uint32Slice.Len]
  · have hni2 : ni < ((s.set ni s[nj]).set nj s[ni]).length := by rw [hlen]; exact hni
    have hnj2 : nj < ((s.set ni s[nj]).set nj s[ni]).length := by rw [hlen]; exact hnj
    rw [Swap_of_lt _ ni nj hni2 hnj2]
    congr 1
    apply List.ext_getElem (by simp)
    intro n h1 h2
    simp only [List.getElem_set]
    by_cases e1 : nj = n
    · subst e1
      by_cases e2 : ni = nj
      · subst e2; simp
      · have e3 : ¬ nj = ni := fun e => e2 e.symm
        simp [e2, e3]
    · by_cases e2 : ni = n
      · subst e2
        have e3 : ¬ nj = ni := e1
        simp [e3]
      · simp [e1, e2]

/-- Witness of C17: positions 0 and 2 of the slice `1, 2, 3`. -/
theorem swap_exchanges_two_witness :
    ∃ s2, Uint32Slice.Swap [1, 2, 3] 0 2 = some s2 ∧
      Uint32Slice.index s2 0 = Uint32Slice.index [1, 2, 3] 2 ∧
      Uint32Slice.index s2 2 = Uint32Slice.index [1, 2, 3] 0 ∧
      (∀ k : Int, k ≠ 0 → k ≠ 2 → Uint32Slice.index s2 k = Uint32Slice.index [1, 2, 3] k) ∧
      Uint32Slice.Len s2 = Uint32Slice.Len [1, 2, 3] ∧ List.Perm s2 [1, 2, 3] ∧
      Uint32Slice.Swap s2 0 2 = some [1, 2, 3] :=
  swap_exchanges_two [1, 2, 3] 0 2 (by decide) (by decide) (by decide) (by decide)

/-! ## Insertion sort through `Len`, `Less` and `Swap` -/

theorem index_append_at (L : List Nat) (y : Nat) (T : List Nat) :
    Uint32Slice.index (L ++ y :: T) (L.length : Int) = some y := by
  rw [index_natCast, List.getElem?_append_right (le_refl _)]
  simp

theorem index_append_next (L : List Nat) (y x : Nat) (T : List Nat) :
    Uint32Slice.index (L ++ y :: x :: T) ((L.length + 1 : Nat) : Int) = some x := by
  rw [index_natCast, List.getElem?_append_right (by omega)]
  simp

theorem Less_adjacent (L : List Nat) (y x : Nat) (T : List Nat) :
    Uint32Slice.Less (L ++ y :: x :: T) ((L.length + 1 : Nat) : Int) (L.length : Int)
      = some (decide (x < y)) := by
  simp only [Uint32Slice.Less, index_append_next, index_append_at]

theorem Swap_adjacent (L : List Nat) (y x : Nat) (T : List Nat) :
    Uint32Slice.Swap (L ++ y :: x :: T) ((L.length + 1 : Nat) : Int) (L.length : Int)
      = some (L ++ x :: y :: T) := by
  simp only [Uint32Slice.Swap, index_append_next, index_append_at, Int.toNat_ofNat]
  congr 1
  rw [List.set_append_right _ _ (by omega)]
  simp

theorem inner_spec (L : List Nat) : ∀ (x : Nat) (R rest : List Nat),
    (L ++ R).Sorted (· ≤ ·) → (∀ r ∈ R, x < r) →
    ∃ out, insertionSort.inner L.length (L ++ x :: (R ++ rest)) = some (out ++ rest) ∧
      out.Sorted (· ≤ ·) ∧ out.Perm (L ++ x :: R) := by
  induction L using List.reverseRecOn with
  | nil =>
    intro x R rest hs hx
    refine ⟨x :: R, rfl, ?_, List.Perm.refl _⟩
    simp only [List.nil_append] at hs
    exact List.sorted_cons.mpr ⟨fun r hr => Nat.le_of_lt (hx r hr), hs⟩
  | append_singleton L y ih =>
    intro x R rest hs hx
    have hshape : L ++ [y] ++ x :: (R ++ rest) = L ++ y :: x :: (R ++ rest) := by simp
    rw [List.length_append, List.length_singleton, insertionSort.inner, hshape, Less_adjacent]
    by_cases hxy : x < y
    · simp only [hxy, decide_True, Swap_adjacent]
      have hs2 : (L ++ y :: R).Sorted (· ≤ ·) := by simpa using hs
      have hx2 : ∀ r ∈ y :: R, x < r := by
        intro r hr
        rcases List.mem_cons.mp hr with rfl | hr
        · exact hxy
        · exact hx r hr
      obtain ⟨out, ho, hso, hpo⟩ := ih x (y :: R) rest hs2 hx2
      refine ⟨out, ho, hso, hpo.trans ?_⟩
      simp only [List.append_assoc, List.singleton_append]
      exact List.Perm.append_left L (List.Perm.swap y x R)
    · simp only [hxy, decide_False]
      refine ⟨L ++ [y] ++ x :: R, by simp, ?_, List.Perm.refl _⟩
      have hyx : y ≤ x := Nat.le_of_not_lt hxy
      obtain ⟨hLy, hR, hLR⟩ := List.pairwise_append.mp hs
      obtain ⟨_, _, hy⟩ := List.pairwise_append.mp hLy
      refine List.pairwise_append.mpr ⟨hLy,
        List.pairwise_cons.mpr ⟨fun r hr => Nat.le_of_lt (hx r hr), hR⟩, ?_⟩
      intro a ha b hb
      rcases List.mem_cons.mp hb with rfl | hb
      · rcases List.mem_append.mp ha with ha | ha
        · exact Nat.le_trans (hy a ha y (List.mem_singleton_self y)) hyx
        · rw [List.mem_singleton.mp ha]
          exact hyx
      · exact hLR a ha b hb

theorem outer_spec (rest : List Nat) : ∀ P : List Nat, P.Sorted (· ≤ ·) →
    ∃ out, insertionSort.outer rest.length P.length (P ++ rest) = some out ∧
      out.Sorted (· ≤ ·) ∧ out.Perm (P ++ rest) := by
  induction rest with
  | nil =>
    intro P hP
    exact ⟨P, by simp [insertionSort.outer], hP, by simp⟩
  | cons x rest ih =>
    intro P hP
    obtain ⟨mid, hm, hsm, hpm⟩ := inner_spec P x [] rest (by simpa using hP) (by simp)
    have hlen : mid.length = P.length + 1 := by simpa using hpm.length_eq
    obtain ⟨out, ho, hso, hpo⟩ := ih mid hsm
    refine ⟨out, ?_, hso, hpo.trans ?_⟩
    · rw [List.length_cons, insertionSort.outer]
      simp only [List.nil_append] at hm
      rw [hm, ← hlen]
      exact ho
    · have : P ++ x :: rest = (P ++ [x]) ++ rest := by simp
      rw [this]
      exact List.Perm.append_right rest (by simpa using hpm)

/-- C12: sort correctness. The insertion sort that reads and changes the
slice only through `Len`, `Less` and `Swap` never panics and ends with
the values in non-decreasing numeric order, the result being a
permutation of the input (the same multiset of values). -/
theorem sort_correct (s : Uint32Slice) :
    ∃ out, insertionSort s = some out ∧ out.Sorted (· ≤ ·) ∧ out.Perm s ∧
      Multiset.ofList out = Multiset.ofList s := by
  have key : ∃ out, insertionSort s = some out ∧ out.Sorted (· ≤ ·) ∧ out.Perm s := by
    cases s with
    | nil => exact ⟨[], rfl, List.sorted_nil, List.Perm.refl _⟩
    | cons a rest =>
      obtain ⟨out, ho, hso, hpo⟩ := outer_spec rest [a] (List.sorted_singleton a)
      refine ⟨out, ?_, hso, by simpa using hpo⟩
      simpa [insertionSort, Uint32Slice.Len] using ho
  obtain ⟨out, h1, h2, h3⟩ := key
  exact ⟨out, h1, h2, h3, Quotient.sound h3⟩

/-! ## Random bit -/

theorem RandomBit_ok {σ ε : Type} (E : EntropySource σ ε) (st st2 : σ) (x : Byte)
    (h : E.Read st [0] = (([x], none), st2)) :
    RandomBit E st = ((decide (x.val % 2 = 1), none), st2) := by
  have hx : x.val % 2 = 0 ∨ x.val % 2 = 1 := by omega
  rcases hx with h0 | h1
  · simp [RandomBit, h, h0]
  · simp [RandomBit, h, h1]

theorem RandomBit_fail {σ ε : Type} (E : EntropySource σ ε) (st st2 : σ) (b : List Byte)
    (e : ε) (h : E.Read st [0] = ((b, some e), st2)) :
    RandomBit E st = ((false, some e), st2) := by
  simp [RandomBit, h]

theorem Source.entropy_ok {ε : Type} (x : Byte) (r : List Byte) (e : ε) :
    Source.entropy.Read ⟨x :: r, e⟩ [0] = (([x], none), ⟨r, e⟩) := by
  simp [Source.entropy]

theorem Source.entropy_fail {ε : Type} (e : ε) :
    Source.entropy.Read ⟨[], e⟩ [0] = (([0], some e), ⟨[], e⟩) := by
  simp [Source.entropy]

theorem counting_read {σ ε : Type} (E : EntropySource σ ε) (st st2 : σ) (b b2 : List Byte)
    (r : Option ε) (calls bytes : Nat) (h : E.Read st b = ((b2, r), st2)) :
    E.counting.Read (st, calls, bytes) b = ((b2, r), (st2, calls + 1, bytes + b.length)) := by
  simp [EntropySource.counting, h]

/-- C13: the entropy byte is mapped to its least-significant bit. When
the entropy source fills the one-byte buffer with `x` and reports no
error, `RandomBit` returns `(false, nil)` for even `x` and `(true, nil)`
for odd `x`, that is `x mod 2 = 1`; it makes one `Read` call, asking for
one byte. -/
theorem random_bit_is_low_bit {σ ε : Type} (E : EntropySource σ ε) (st st2 : σ) (x : Byte)
    (calls bytes : Nat) (h : E.Read st [0] = (([x], none), st2)) :
    RandomBit E.counting (st, calls, bytes)
      = ((decide (x.val % 2 = 1), none), (st2, calls + 1, bytes + 1)) ∧
    (x.val % 2 = 0 → (RandomBit E st).1 = (false, none)) ∧
    (x.val % 2 = 1 → (RandomBit E st).1 = (true, none)) := by
  refine ⟨RandomBit_ok E.counting _ _ x (counting_read E st st2 [0] [x] none calls bytes h),
    ?_, ?_⟩
  · intro h0
    rw [RandomBit_ok E st st2 x h]
    simp [h0]
  · intro h1
    rw [RandomBit_ok E st st2 x h]
    simp [h1]

/-- Witness of C13: the entropy bytes `0x2a` (even) and `0x2b` (odd). -/
theorem random_bit_is_low_bit_witness :
    RandomBit Source.entropy.counting ((⟨[0x2a, 7], ()⟩ : Source Unit), 0, 0)
      = ((false, none), (⟨[7], ()⟩, 1, 1)) ∧
    RandomBit Source.entropy.counting ((⟨[0x2b, 7], ()⟩ : Source Unit), 0, 0)
      = ((true, none), (⟨[7], ()⟩, 1, 1)) :=
  ⟨(random_bit_is_low_bit Source.entropy ⟨[0x2a, 7], ()⟩ ⟨[7], ()⟩ 0x2a 0 0
      (Source.entropy_ok 0x2a [7] ())).1,
   (random_bit_is_low_bit Source.entropy ⟨[0x2b, 7], ()⟩ ⟨[7], ()⟩ 0x2b 0 0
      (Source.entropy_ok 0x2b [7] ())).1⟩

theorem card_odd_bytes : (Finset.univ.filter fun x : Byte => x.val % 2 = 1).card = 128 := by
  rw [Finset.card_eq_of_equiv_fin]
  exact ⟨fun x => ⟨x.val.val / 2, by have := x.val.isLt; omega⟩,
    fun k => ⟨⟨2 * k.val + 1, by have := k.isLt; omega⟩, by simp; omega⟩,
    fun x => by
      have := (Finset.mem_filter.mp x.property).2
      apply Subtype.ext; apply Fin.ext; simp; omega,
    fun k => by apply Fin.ext; simp; omega⟩

theorem card_even_bytes : (Finset.univ.filter fun x : Byte => ¬ x.val % 2 = 1).card = 128 := by
  rw [Finset.card_eq_of_equiv_fin]
  exact ⟨fun x => ⟨x.val.val / 2, by have := x.val.isLt; omega⟩,
    fun k => ⟨⟨2 * k.val, by have := k.isLt; omega⟩, by simp⟩,
    fun x => by
      have := (Finset.mem_filter.mp x.property).2
      apply Subtype.ext; apply Fin.ext; simp; omega,
    fun k => by apply Fin.ext; simp⟩

/-- C14: `RandomBit` is unbiased given a uniform byte. Of the 256 values
the entropy byte can take, exactly 128 make `RandomBit` return
`(true, nil)` and exactly 128 make it return `(false, nil)`, so each
outcome has probability `128 / 256 = 1 / 2` under a uniform byte. -/
theorem random_bit_unbiased {ε : Type} [DecidableEq ε] (r : List Byte) (e : ε) :
    (Finset.univ.filter fun x : Byte =>
      (RandomBit Source.entropy ⟨x :: r, e⟩).1 = (true, none)).card = 128 ∧
    (Finset.univ.filter fun x : Byte =>
      (RandomBit Source.entropy ⟨x :: r, e⟩).1 = (false, none)).card = 128 ∧
    (Finset.univ : Finset Byte).card = 256 ∧ ((128 : ℚ) / 256 = 1 / 2) := by
  have hb : ∀ x : Byte, (RandomBit Source.entropy ⟨x :: r, e⟩).1
      = (decide (x.val % 2 = 1), none) := by
    intro x
    rw [RandomBit_ok Source.entropy _ _ x (Source.entropy_ok x r e)]
  refine ⟨?_, ?_, Finset.card_univ.trans (Fintype.card_fin 256), by norm_num⟩
  · have hf : (Finset.univ.filter fun x : Byte =>
        (RandomBit Source.entropy ⟨x :: r, e⟩).1 = (true, none))
        = Finset.univ.filter fun x : Byte => x.val % 2 = 1 := by
      apply Finset.filter_congr
      intro x _
      rw [hb x]
      simp
    rw [hf, card_odd_bytes]
  · have hf : (Finset.univ.filter fun x : Byte =>
        (RandomBit Source.entropy ⟨x :: r, e⟩).1 = (false, none))
        = Finset.univ.filter fun x : Byte => ¬ x.val % 2 = 1 := by
      apply Finset.filter_congr
      intro x _
      rw [hb x]
      simp
    rw [hf, card_even_bytes]

/-- C15: error propagation of `RandomBit`. When the `Read` of the entropy
source returns the error `e`, `RandomBit` returns that same error `e`
after this one `Read` call: the call counter advances by one and the
source is left in the state of the failed call. The result is never a
success: its error is not `nil`, and the `bool` that accompanies it is
the zero value `false` of the Go return statement. -/
theorem random_bit_error {σ ε : Type} (E : EntropySource σ ε) (st st2 : σ) (b : List Byte)
    (e : ε) (calls bytes : Nat) (h : E.Read st [0] = ((b, some e), st2)) :
    RandomBit E.counting (st, calls, bytes)
      = ((false, some e), (st2, calls + 1, bytes + 1)) ∧
    (RandomBit E st).1.2 = some e ∧ (RandomBit E st).1.2 ≠ none ∧ (RandomBit E st).2 = st2 := by
  have h1 := RandomBit_fail E.counting _ _ b e
    (counting_read E st st2 [0] b (some e) calls bytes h)
  have h2 := RandomBit_fail E st st2 b e h
  refine ⟨h1, ?_, ?_, ?_⟩ <;> simp [h2]

/-- Witness of C15: an entropy source with nothing left fails with its
error. -/
theorem random_bit_error_witness :
    RandomBit Source.entropy.counting ((⟨[], "no entropy"⟩ : Source String), 0, 0)
      = ((false, some "no entropy"), (⟨[], "no entropy"⟩, 1, 1)) :=
  (random_bit_error Source.entropy ⟨[], "no entropy"⟩ ⟨[], "no entropy"⟩ [0] "no entropy" 0 0
    (Source.entropy_fail "no entropy")).1

/-! ## Streams of values -/

theorem writeUint64s_eq (b : Buffer) (vs : List Nat) :
    writeUint64s b vs = b ++ (vs.map (leBytes 8)).flatten := by
  induction vs generalizing b with
  | nil => simp [writeUint64s]
  | cons v vs ih =>
    have := ih (WriteUint64 b v)
    simp only [writeUint64s, List.foldl_cons] at this ⊢
    rw [this, WriteUint64_eq]
    simp

theorem ReadUint64_leBytes {ε : Type} (v : Nat) (r : List Byte) (e : ε) :
    ReadUint64 Source.reader ⟨leBytes 8 v ++ r, e⟩ = ((v % 2 ^ 64, none), ⟨r, e⟩) := by
  have hd := Source.delivers (leBytes 8 v) r e
  have hv := ReadUintN_value Source.reader _ _ _ hd (by rw [leBytes_length])
  rw [leBytes_length, leValue_leBytes] at hv
  rw [ReadUint64_eq_ReadUintN, hv]

theorem readUint64s_stream {ε : Type} (vs : List Nat) (r : List Byte) (e : ε)
    (h : ∀ v ∈ vs, v < 2 ^ 64) :
    readUint64s Source.reader vs.length ⟨(vs.map (leBytes 8)).flatten ++ r, e⟩
      = (vs.map fun v => (v, none), ⟨r, e⟩) := by
  induction vs with
  | nil => simp [readUint64s]
  | cons v vs ih =>
    have hv : v % 2 ^ 64 = v := Nat.mod_eq_of_lt (h v (List.mem_cons_self v vs))
    have ih2 := ih (fun w hw => h w (List.mem_cons_of_mem v hw))
    simp only [List.map_cons, List.flatten_cons, List.append_assoc, List.length_cons, readUint64s,
      ReadUint64_leBytes, hv, ih2]

/-- C18: stream composition. Writing the 64-bit values `vs` in order with
`WriteUint64` into an empty buffer and then calling `ReadUint64`
`vs.length` times on the resulting bytes returns the elements of `vs` in
the same order, each without error; the source is then empty and one
further `ReadUint64` returns the source's exhaustion error. -/
theorem stream_composition {ε : Type} (vs : List Nat) (e : ε) (h : ∀ v ∈ vs, v < 2 ^ 64) :
    readUint64s Source.reader vs.length ⟨writeUint64s [] vs, e⟩
      = (vs.map fun v => (v, none), ⟨[], e⟩) ∧
    (ReadUint64 Source.reader
      (readUint64s Source.reader vs.length ⟨writeUint64s [] vs, e⟩).2).1 = (0, some e) := by
  have key : readUint64s Source.reader vs.length ⟨writeUint64s [] vs, e⟩
      = (vs.map fun v => (v, none), ⟨[], e⟩) := by
    have := readUint64s_stream vs [] e h
    rw [List.append_nil] at this
    rw [writeUint64s_eq, List.nil_append, this]
  refine ⟨key, ?_⟩
  rw [key]
  rfl

/-- Witness of C18: three values, the largest 64-bit value among them. -/
theorem stream_composition_witness :
    readUint64s Source.reader 3
        (⟨writeUint64s [] [0x0102030405060708, 0, 0xffffffffffffffff], "EOF"⟩ : Source String)
      = ([(0x0102030405060708, none), (0, none), (0xffffffffffffffff, none)], ⟨[], "EOF"⟩) :=
  (stream_composition [0x0102030405060708, 0, 0xffffffffffffffff] "EOF" (by decide)).1

/-! ## Narrow encoders and wide encoders -/

/-- C20: narrow encoders are prefixes of wide encoders. The 3 bytes
appended by `WriteUint24` are the first 3 of the 4 bytes appended by
`WriteUint32`; the bytes appended by `WriteUint40`, `WriteUint48`,
`WriteUint56` are the first 5, 6, 7 of the 8 bytes appended by
`WriteUint64`; and the bytes appended by `WriteUint16 (v mod 2^16)` and
`WriteUint32 (v mod 2^32)` are the first 2 and 4 bytes appended by
`WriteUint64 v`. It holds for every natural `v` and every buffer `B`. -/
theorem narrow_is_start_of_wide (B : Buffer) (v : Nat) :
    (WriteUint24 B v).drop B.length = ((WriteUint32 B v).drop B.length).take 3 ∧
    (WriteUint40 B v).drop B.length = ((WriteUint64 B v).drop B.length).take 5 ∧
    (WriteUint48 B v).drop B.length = ((WriteUint64 B v).drop B.length).take 6 ∧
    (WriteUint56 B v).drop B.length = ((WriteUint64 B v).drop B.length).take 7 ∧
    (WriteUint16 B (v % 2 ^ 16)).drop B.length = ((WriteUint64 B v).drop B.length).take 2 ∧
    (WriteUint32 B (v % 2 ^ 32)).drop B.length = ((WriteUint64 B v).drop B.length).take 4 := by
  simp only [WriteUint16_eq, WriteUint24_eq, WriteUint32_eq, WriteUint40_eq, WriteUint48_eq,
    WriteUint56_eq, WriteUint64_eq, List.drop_left]
  refine ⟨?_, ?_, ?_, ?_, ?_, ?_⟩
  · rw [leBytes_take 3 4 v (by decide)]
  · rw [leBytes_take 5 8 v (by decide)]
  · rw [leBytes_take 6 8 v (by decide)]
  · rw [leBytes_take 7 8 v (by decide)]
  · rw [leBytes_take 2 8 v (by decide)]; exact leBytes_mod 2 v
  · rw [leBytes_take 4 8 v (by decide)]; exact leBytes_mod 4 v

/-! ## The generic reader at any length -/

theorem shl64_ge (x k : Nat) (h : 64 ≤ k) : shl64 x k = 0 := by
  obtain ⟨d, rfl⟩ : ∃ d, k = 64 + d := ⟨k - 64, by omega⟩
  have hx : x * (2 ^ 64 * 2 ^ d) = 2 ^ 64 * (x * 2 ^ d) := by ring
  rw [shl64, Nat.shiftLeft_eq, Nat.pow_add, hx]
  exact Nat.mul_mod_right _ _

theorem shl64_term (x : Byte) (i : Nat) :
    shl64 x.val (mul8 i 8)
      = if (8 * i) % 256 < 64 then x.val <<< ((8 * i) % 256) else 0 := by
  have hm : mul8 i 8 = (8 * i) % 256 := by unfold mul8; omega
  rw [hm]
  split_ifs with h
  · rw [shl64_lit x _ (by omega), Nat.shiftLeft_eq]
  · exact shl64_ge _ _ (by omega)

theorem xorFold_eq_xorTerms (bs : List Byte) (i res : Nat) (h : i + bs.length ≤ 255) :
    xorFold i res bs = res ^^^ xorTerms i bs := by
  induction bs generalizing i res with
  | nil => simp [xorFold, xorTerms]
  | cons x xs ih =>
    simp only [List.length_cons] at h
    have hinc : inc8 i = i + 1 := by unfold inc8; omega
    rw [xorFold, xorTerms, hinc, ih (i + 1) _ (by omega), shl64_term, Nat.xor_assoc]

theorem xorTerms_append (a b : List Byte) (i : Nat) :
    xorTerms i (a ++ b) = xorTerms i a ^^^ xorTerms (i + a.length) b := by
  induction a generalizing i with
  | nil => simp [xorTerms]
  | cons x xs ih =>
    have hi : i + 1 + xs.length = i + (xs.length + 1) := by omega
    rw [List.cons_append, xorTerms, xorTerms, ih (i + 1), List.length_cons, Nat.xor_assoc, hi]

theorem xorTerms_high (bs : List Byte) (i : Nat) (h1 : 8 ≤ i) (h2 : i + bs.length ≤ 32) :
    xorTerms i bs = 0 := by
  induction bs generalizing i with
  | nil => rfl
  | cons x xs ih =>
    simp only [List.length_cons] at h2
    have hs : ¬ (8 * i) % 256 < 64 := by omega
    rw [xorTerms, if_neg hs, ih (i + 1) (by omega) (by omega)]
    rfl

theorem xorTerms_low (bs : List Byte) (h : bs.length ≤ 8) : xorTerms 0 bs = leValue bs := by
  rw [← xorFold_zero bs h, xorFold_eq_xorTerms bs 0 0 (by omega), Nat.zero_xor]

theorem xorTerms_upto32 (bs : List Byte) (h : bs.length ≤ 32) :
    xorTerms 0 bs = leValue (bs.take 8) := by
  by_cases h8 : bs.length ≤ 8
  · rw [List.take_of_length_le h8, xorTerms_low bs h8]
  · conv_lhs => rw [← List.take_append_drop 8 bs]
    rw [xorTerms_append, xorTerms_low _ (by simp),
      xorTerms_high _ _ (by simp; omega) (by simp; omega), Nat.xor_zero]

theorem xor_low_byte (a b : Nat) (hb : b < 2 ^ 8) :
    (a ^^^ b) % 2 ^ 8 = (a % 2 ^ 8) ^^^ b ∧ (a ^^^ b) / 2 ^ 8 = a / 2 ^ 8 := by
  constructor
  · apply Nat.eq_of_testBit_eq
    intro j
    simp only [Nat.testBit_mod_two_pow, Nat.testBit_xor]
    by_cases hj : j < 8
    · simp [hj]
    · have : b < 2 ^ j := lt_of_lt_of_le hb (Nat.pow_le_pow_right (by decide) (by omega))
      simp [hj, Nat.testBit_lt_two_pow this]
  · apply Nat.eq_of_testBit_eq
    intro j
    rw [← Nat.shiftRight_eq_div_pow, ← Nat.shiftRight_eq_div_pow, Nat.testBit_shiftRight,
      Nat.testBit_shiftRight, Nat.testBit_xor]
    have : b < 2 ^ (8 + j) := lt_of_lt_of_le hb (Nat.pow_le_pow_right (by decide) (by omega))
    simp [Nat.testBit_lt_two_pow this]

/-- C19: `ReadUintN` beyond 8 bytes. For every length `N ≤ 255`, when
the source delivers the `N` bytes `bs`, `ReadUintN` makes exactly `N`
calls, returns no error and returns the XOR of the terms `t_i`, with
`s_i = (8 * i) mod 256` and `t_i = b_i << s_i` if `s_i < 64`, else `0`.
So for `8 ≤ N ≤ 32` the result is the little-endian value of the first 8
bytes, and for `N = 33` it is that value with `b_32` XORed into its
least-significant byte. -/
theorem read_beyond_eight {σ ε : Type} (R : ByteReader σ ε) (s t : σ) (bs : List Byte)
    (c : Nat) (hd : Delivers R s bs t) (hN : bs.length ≤ 255) :
    ReadUintN R.counting (s, c) bs.length = ((xorTerms 0 bs, none), (t, c + bs.length)) ∧
    (8 ≤ bs.length → bs.length ≤ 32 → xorTerms 0 bs = leValue (bs.take 8)) ∧
    (bs.length = 33 →
      xorTerms 0 bs = leValue (bs.take 8) ^^^ (bs.getD 32 0).val ∧
      xorTerms 0 bs % 256 = (bs.getD 0 0).val ^^^ (bs.getD 32 0).val ∧
      xorTerms 0 bs / 256 = leValue (bs.take 8) / 256) := by
  refine ⟨?_, fun _ h32 => xorTerms_upto32 bs h32, ?_⟩
  · rw [ReadUintN_ok R.counting bs (s, c) (t, c + bs.length) (hd.counting c),
      xorFold_eq_xorTerms bs 0 0 (by omega), Nat.zero_xor]
  · intro h33
    have hsplit : bs = bs.take 32 ++ [bs.getD 32 0] := by
      conv_lhs => rw [← List.take_append_drop 32 bs]
      congr 1
      have hl : (bs.drop 32).length = 1 := by simp [h33]
      match hdr : bs.drop 32, hl with
      | [y], _ =>
        have : bs.getD 32 0 = y := by
          have h0 : (bs.drop 32).getD 0 0 = y := by rw [hdr]; rfl
          rw [← h0, List.getD_eq_getElem?_getD, List.getD_eq_getElem?_getD, List.getElem?_drop]
        rw [this]
    have hval : xorTerms 0 bs = leValue (bs.take 8) ^^^ (bs.getD 32 0).val := by
      conv_lhs => rw [hsplit]
      rw [xorTerms_append, xorTerms_upto32 _ (by simp), List.take_take]
      simp [xorTerms, h33]
    have hb := (bs.getD 32 0).isLt
    have hlow := xor_low_byte (leValue (bs.take 8)) (bs.getD 32 0).val hb
    have hhead : leValue (bs.take 8) % 2 ^ 8 = (bs.getD 0 0).val := by
      match hbs : bs, h33 with
      | x :: xs, _ =>
        have hx := x.isLt
        simp only [List.take_succ_cons, leValue_cons, List.getD_cons_zero]
        omega
    refine ⟨hval, ?_, ?_⟩
    · rw [hval]
      have := hlow.1
      rw [hhead] at this
      exact this
    · rw [hval]
      exact hlow.2

/-- Witness of C19: 33 bytes, the first eight `01 .. 08`, bytes 8 to 31
equal to `ff`, and `b_32 = 0x10`. -/
theorem read_beyond_eight_witness :
    ReadUintN Source.reader.counting
        ((⟨[1, 2, 3, 4, 5, 6, 7, 8] ++ List.replicate 24 0xff ++ [0x10], ()⟩ : Source Unit), 0) 33
      = ((0x0807060504030211, none), (⟨[], ()⟩, 33)) :=
  (read_beyond_eight Source.reader _ ⟨[], ()⟩
    ([1, 2, 3, 4, 5, 6, 7, 8] ++ List.replicate 24 0xff ++ [0x10]) 0
    (Source.delivers ([1, 2, 3, 4, 5, 6, 7, 8] ++ List.replicate 24 0xff ++ [0x10]) [] ())
    (by decide)).1

end utils
